import Mathlib

/-!
Percent-encoding, URL utilities and the OAuth 1.0a signature engine.

A shallow embedding of `src/src/Utility.cpp` and `src/src/Signature.cpp`.

Platform fixed by the embedding (x86-64 System V, GCC, libstdc++, glibc, the
"C" locale, C++11 or later):

* `char` is a signed 8-bit integer, `int` and `unsigned int` are 32 bits wide,
  `size_t` is 64 bits wide; conversions between integer types wrap;
* a `std::string` is a finite sequence of bytes, modelled as `List (Fin 256)`;
* library calls (`isalnum`, `std::string::find`, `std::string::substr`,
  stream insertion and extraction, `std::regex_match`) are modelled from their
  documented behaviour; an exception thrown by a library call is the value
  `none`;
* the call stack has the default size of 8 MiB; a call that exhausts it ends
  the process, which is the value `none` as well.
-/

namespace OAuth

/-! ## Bytes, strings and integer conversions -/

/-- One byte of a `std::string`. -/
abbrev Byte := Fin 256

/-- The contents of a `std::string`. -/
abbrev Str := List Byte

/-- The bytes of an ASCII string literal. -/
def lit (s : String) : Str := s.toList.map (fun c => Fin.ofNat c.toNat)

/-- Conversion `char → int` (integral promotion of a signed 8-bit `char`). -/
def charToInt (c : Byte) : Int :=
  if c.val < 128 then (c.val : Int) else (c.val : Int) - 256

/-- Conversion of an integer to `char`: the low eight bits. -/
def toChar (n : Int) : Byte := Fin.ofNat (n % 256).toNat

/-- Conversion of an integer to `unsigned int`: reduction modulo `2^32`. -/
def toUInt (n : Int) : Nat := (n % 4294967296).toNat

/-- Conversion of an integer to `size_t`: reduction modulo `2^64`. -/
def toSizeT (n : Int) : Nat := (n % 18446744073709551616).toNat

/-- Conversion of an integer to `int`: the value in `[-2^31, 2^31)` congruent
to it modulo `2^32`. -/
def toInt32 (n : Int) : Int :=
  let m := n % 4294967296
  if m < 2147483648 then m else m - 4294967296

/-- The value of `std::string::npos`. -/
def npos : Nat := 18446744073709551615

/-! ## Output string streams -/

/-- The state of a `std::ostringstream` that the code relies on: the buffer and
the formatting state set by `std::uppercase`, `std::hex`, `std::setfill` and
`std::setw`. -/
structure OStream where
  /-- Characters written so far. -/
  buf : Str
  /-- The `uppercase` flag. -/
  uppercase : Bool
  /-- Whether the base field is `hex` (otherwise `dec`). -/
  hex : Bool
  /-- The fill character. -/
  fill : Byte
  /-- The field width of the next formatted output. -/
  width : Nat

/-- A freshly constructed `std::ostringstream`. -/
def OStream.new : OStream :=
  { buf := [], uppercase := false, hex := false, fill := 32, width := 0 }

/-- Formatted output of an already converted character sequence: padded on the
left with the fill character up to the field width, after which the width is
reset to zero. -/
def OStream.put (os : OStream) (s : Str) : OStream :=
  { os with buf := os.buf ++ (List.replicate (os.width - s.length) os.fill ++ s), width := 0 }

/-- A digit `d < 16` as a character, for hexadecimal or decimal output. -/
def digitChar (uppercase : Bool) (d : Nat) : Byte :=
  if d < 10 then Fin.ofNat (48 + d)
  else if uppercase then Fin.ofNat (55 + d) else Fin.ofNat (87 + d)

/-- The digits of `n` in base `base`, most significant first, without leading
zeros (one digit for zero); `fuel` bounds the number of digits. -/
def digitsOf (uppercase : Bool) (base : Nat) : Nat → Nat → Str
  | 0, _ => []
  | fuel + 1, n =>
    if n < base then [digitChar uppercase n]
    else digitsOf uppercase base fuel (n / base) ++ [digitChar uppercase (n % base)]

/-- The manipulator `std::uppercase`. -/
def OStream.setUppercase (os : OStream) : OStream := { os with uppercase := true }

/-- The manipulator `std::hex`. -/
def OStream.setHex (os : OStream) : OStream := { os with hex := true }

/-- The manipulator `std::setfill`. -/
def OStream.setfill (os : OStream) (c : Byte) : OStream := { os with fill := c }

/-- The manipulator `std::setw`. -/
def OStream.setw (os : OStream) (w : Nat) : OStream := { os with width := w }

/-- The insertion `os << c` of a `char`. -/
def OStream.putChar (os : OStream) (c : Byte) : OStream := os.put [c]

/-- The insertion `os << n` of an `unsigned int` (at most ten decimal or eight
hexadecimal digits). -/
def OStream.putUInt (os : OStream) (n : Nat) : OStream :=
  os.put (digitsOf os.uppercase (if os.hex then 16 else 10) 10 n)

/-! ## `Utility.cpp`: percent-encoding -/

/-- The function `isalnum` of the C library in the "C" locale; arguments
outside the range of `unsigned char` are not alphanumeric. -/
def isalnum (character : Int) : Bool :=
  (decide (48 ≤ character) && decide (character ≤ 57)) ||
  (decide (65 ≤ character) && decide (character ≤ 90)) ||
  (decide (97 ≤ character) && decide (character ≤ 122))

/-- `Utility::isUnreservedUrlCharacter`. The call `otherUnreserved.find(character)`
selects the overload taking a `char`, so the argument is narrowed to `char`. -/
def isUnreservedUrlCharacter (character : Int) : Bool :=
  let otherUnreserved := lit "-._~"
  isalnum character || otherUnreserved.contains (toChar character)

/-- One iteration of the loop of `Utility::urlEncode`, for the character
`c = data[i]`. -/
def urlEncodeStep (encodedStream : OStream) (c : Byte) : OStream :=
  if isUnreservedUrlCharacter (charToInt c) then
    encodedStream.putChar c
  else
    ((((encodedStream.put (lit "%")).setUppercase.setfill 48).setw 2).setHex).putUInt
      (toUInt (charToInt c))

/-- `Utility::urlEncode`. -/
def urlEncode (data : Str) : Str :=
  (data.foldl urlEncodeStep OStream.new).buf

/-- What one iteration of the loop of `Utility::urlEncode` writes for the
character `c` on a stream whose field width is zero. -/
def encodeByte (c : Byte) : Str := (urlEncodeStep OStream.new c).buf

/-! ## Input string streams and substrings -/

/-- The function `isspace` of the "C" locale. -/
def isspace (c : Byte) : Bool :=
  c.val == 32 || (decide (9 ≤ c.val) && decide (c.val ≤ 13))

/-- The value of a hexadecimal digit, `none` for any other character. -/
def hexDigitValue (c : Byte) : Option Nat :=
  if 48 ≤ c.val ∧ c.val ≤ 57 then some (c.val - 48)
  else if 65 ≤ c.val ∧ c.val ≤ 70 then some (c.val - 55)
  else if 97 ≤ c.val ∧ c.val ≤ 102 then some (c.val - 87)
  else none

/-- The value of the longest leading run of hexadecimal digits, continuing
from the accumulated value `acc`. -/
def accumulateHex : Str → Nat → Nat
  | [], acc => acc
  | c :: cs, acc =>
    match hexDigitValue c with
    | some d => accumulateHex cs (16 * acc + d)
    | none => acc

/-- The extraction `std::istringstream(s) >> std::hex >> v` into an
`unsigned int` holding `v`; the result is the value held afterwards.
Leading white space is skipped; when nothing is left the extraction stores
nothing. Otherwise an optional sign and an optional `0x` or `0X` are read,
then hexadecimal digits; a failed conversion stores zero, an overflow stores
the largest value, and a minus sign negates modulo `2^32`. -/
def extractHexUInt (s : Str) (v : Nat) : Nat :=
  match s.dropWhile isspace with
  | [] => v
  | c :: cs =>
    let rest := if c.val = 45 ∨ c.val = 43 then cs else c :: cs
    let digits :=
      match rest with
      | z :: x :: ds => if z.val = 48 ∧ (x.val = 120 ∨ x.val = 88) then ds else rest
      | _ => rest
    let result := accumulateHex digits 0
    if 4294967295 < result then 4294967295
    else if c.val = 45 then toUInt (-(result : Int)) else result

/-- `std::string::substr(pos, n)`: throws `std::out_of_range` (here `none`)
when `pos` exceeds the length, otherwise yields at most `n` characters from
`pos` on. -/
def substr (s : Str) (pos n : Nat) : Option Str :=
  if s.length < pos then none else some ((s.drop pos).take n)

/-- The call `std::string::substr(pos)` with the default count: throws
`std::out_of_range` (here `none`) when `pos` exceeds the length, otherwise
yields everything from `pos` on. -/
def substrToEnd (s : Str) (pos : Nat) : Option Str :=
  if s.length < pos then none else some (s.drop pos)

/-- The loop of `Utility::urlDecode` from index `i` on. Each iteration advances
`i`, so `data.length + 1` units of `fuel` are never used up; `none` stands for
a thrown exception or for fuel running out. -/
def urlDecodeLoop (data : Str) : Nat → Nat → OStream → Option OStream
  | 0, _, _ => none
  | fuel + 1, i, decodedStream =>
    if h : i < data.length then
      let currentCharacter := toUInt (charToInt (data.get ⟨i, h⟩))
      if currentCharacter = 37 then
        match substr data (i + 1) 2 with
        | none => none
        | some encodedChar =>
          let currentCharacter := extractHexUInt encodedChar currentCharacter
          let i := i + 2
          let currentCharacter := if currentCharacter = 43 then 32 else currentCharacter
          urlDecodeLoop data fuel (i + 1) (decodedStream.putChar (toChar currentCharacter))
      else
        let currentCharacter := if currentCharacter = 43 then 32 else currentCharacter
        urlDecodeLoop data fuel (i + 1) (decodedStream.putChar (toChar currentCharacter))
    else some decodedStream

/-- `Utility::urlDecode`. -/
def urlDecode (data : Str) : Option Str :=
  (urlDecodeLoop data (data.length + 1) 0 OStream.new).map (fun os => os.buf)

/-! ## `Utility.cpp`: host and resource of a URL -/

/-- Search for `pat` in `s`, where `s` is the part of the string that starts at
index `k`: the index of the first occurrence, if any. -/
def findAux (pat : Str) : Str → Nat → Option Nat
  | [], k => if pat.isEmpty then some k else none
  | c :: cs, k => if pat.isPrefixOf (c :: cs) then some k else findAux pat cs (k + 1)

/-- `std::string::find(pat, pos)`: the index of the first occurrence of `pat`
at or after `pos`, and `npos` when there is none. -/
def find (s pat : Str) (pos : Nat) : Nat :=
  if pos ≤ s.length then (findAux pat (s.drop pos) pos).getD npos else npos

/-- `Utility::getHostPosition`: both positions are stored in an `int`. -/
def getHostPosition (url : Str) : Int × Int :=
  let protocolEnd := lit "://"
  let hostBeginPosition := toInt32 (toSizeT (find url protocolEnd 0 + protocolEnd.length))
  let hostEndPositon := toInt32 (find url (lit "/") (toSizeT hostBeginPosition))
  (hostBeginPosition, hostEndPositon)

/-- `Utility::hostFromUrl`. -/
def hostFromUrl (url : Str) : Option Str :=
  let hostPosition := getHostPosition url
  let hostNameLength := toInt32 (hostPosition.2 - hostPosition.1)
  substr url (toSizeT hostPosition.1) (toSizeT hostNameLength)

/-- `Utility::resourceFromUrl`. The count of `substr` is left at its default
`npos`, which no string reaches: the result runs to the end of the string. -/
def resourceFromUrl (url : Str) : Option Str :=
  let hostPosition := getHostPosition url
  substrToEnd url (toSizeT hostPosition.2)

/-! ## `Utility.cpp`: URL normalisation -/

/-- The regular expression `.` of the ECMAScript grammar matches one character
that is not a line terminator. -/
def matchesDot (c : Byte) : Bool := c.val != 10 && c.val != 13

/-- Membership in the language of the regular expression `.*://.*`: the whole
of `url` is a run of characters matched by `.`, then `://`, then another such
run. -/
def hasProtocolLanguage (url : Str) : Bool :=
  (List.range (url.length + 1)).any fun k =>
    (url.take k).all matchesDot && (lit "://").isPrefixOf (url.drop k) &&
      (url.drop (k + 3)).all matchesDot

/-- Membership in the language of the regular expression `.*://.*/.*`: the
whole of `url` is a run of characters matched by `.`, then `://`, a second
run, `/`, and a third run. -/
def hasSlashAfterHostLanguage (url : Str) : Bool :=
  (List.range (url.length + 1)).any fun k =>
    (url.take k).all matchesDot && (lit "://").isPrefixOf (url.drop k) &&
      (List.range (url.length + 1)).any fun j =>
        decide (k + 3 ≤ j) && ((url.drop (k + 3)).take (j - (k + 3))).all matchesDot &&
          (lit "/").isPrefixOf (url.drop j) && (url.drop (j + 1)).all matchesDot

/-- The length of the first line of a string: the number of characters before
its first line terminator. Both regular expressions of `normalizeUrl` begin
with a greedy `.*`; the backtracking executor of `std::regex_match` first
extends it over the whole first line, one nesting of its recursion for each
character matched, and no path of either expression leads beyond the first
line. -/
def firstLineLength (url : Str) : Nat := (url.takeWhile matchesDot).length

/-- The room that the call stack leaves to the recursion of `std::regex_match`
in `normalizeUrl`, for each of its two regular expressions: the longest first
line that the call gets through without exhausting the stack. On a stack of
8 MiB every character matched takes more than one byte of it, so both are
below `2^23`. -/
structure RegexStack where
  /-- The longest first line that the match against `.*://.*` gets through. -/
  protocolDepth : Nat
  /-- The longest first line that the match against `.*://.*/.*` gets through. -/
  slashDepth : Nat
  /-- The bound that the size of the stack puts on the first. -/
  protocolDepth_lt : protocolDepth < 8388608
  /-- The bound that the size of the stack puts on the second. -/
  slashDepth_lt : slashDepth < 8388608

/-- `std::regex_match(url, hasProtocol)` for the expression `.*://.*`: whether
`url` is in its language, unless the first line is longer than the stack
allows; then the recursion exhausts the stack and the process dies (here
`none`). -/
def regexMatchHasProtocol (stack : RegexStack) (url : Str) : Option Bool :=
  if stack.protocolDepth < firstLineLength url then none
  else some (hasProtocolLanguage url)

/-- `std::regex_match(url, hasSlashAfterHost)` for the expression
`.*://.*/.*`: whether `url` is in its language, unless the first line is
longer than the stack allows (here `none`). -/
def regexMatchHasSlashAfterHost (stack : RegexStack) (url : Str) : Option Bool :=
  if stack.slashDepth < firstLineLength url then none
  else some (hasSlashAfterHostLanguage url)

/-- `Utility::normalizeUrl`; the result is `none` when one of the two calls of
`std::regex_match` exhausts the stack. -/
def normalizeUrl (stack : RegexStack) (url : Str) : Option Str :=
  match regexMatchHasProtocol stack url with
  | none => none
  | some hasProtocol =>
    let url := if !hasProtocol then lit "http://" ++ url else url
    match regexMatchHasSlashAfterHost stack url with
    | none => none
    | some hasSlashAfterHost =>
      let url := if !hasSlashAfterHost then url ++ lit "/" else url
      some url

/-- The value of the variable `url` of `normalizeUrl` after the first of its
two steps, when that step returns. -/
def withScheme (url : Str) : Str :=
  if !hasProtocolLanguage url then lit "http://" ++ url else url

/-- The string that `normalizeUrl` returns, when it returns. -/
def normalizeUrlValue (url : Str) : Str :=
  let url := if !hasProtocolLanguage url then lit "http://" ++ url else url
  let url := if !hasSlashAfterHostLanguage url then url ++ lit "/" else url
  url

/-! ## `Signature.cpp` -/

/-- Modelled from the spec: the enumeration `SignatureMethod` of `Signature.h`,
which is not among the sources; the spec names the three methods. -/
inductive SignatureMethod where
  | HMAC_SHA1
  | RSA_SHA1
  | PLAINTEXT
  deriving DecidableEq, Repr

/-- The cryptographic primitives that `Signature.cpp` takes from
`crypto/HMAC_SHA1.h` and `crypto/base64.h`, taken as given: `hmacSha1 text key`
is the digest that `CHMAC_SHA1::HMAC_SHA1` writes for the `text.length` bytes
of `text` and the `key.length` bytes of `key`, and `base64Encode bytes len` is
`base64_encode(bytes, len)`. -/
structure Crypto where
  /-- The digest of `CHMAC_SHA1::HMAC_SHA1`. -/
  hmacSha1 : Str → Str → Str
  /-- The function `base64_encode`. -/
  base64Encode : Str → Nat → Str

/-- The data members of a `Signature` object. -/
structure Signature where
  /-- The signature method chosen at construction. -/
  method : SignatureMethod
  /-- The base string stored by the last call of `get`. -/
  baseString : Str
  /-- The client secret stored by the last call of `get`. -/
  clientSecret : Str
  /-- The token secret stored by the last call of `get`. -/
  tokenSecret : Str

/-- The constructor `Signature::Signature(method)`: the strings are empty. -/
def Signature.new (method : SignatureMethod) : Signature :=
  { method := method, baseString := [], clientSecret := [], tokenSecret := [] }

/-- `Signature::hmacSha1Signature`. -/
def Signature.hmacSha1Signature (crypto : Crypto) (self : Signature) : Str :=
  let DIGEST_SIZE := 20
  let key := self.clientSecret ++ lit "&" ++ self.tokenSecret
  let digest := crypto.hmacSha1 self.baseString key
  let stringDigest := crypto.base64Encode digest DIGEST_SIZE
  urlEncode stringDigest

/-- `Signature::rsaSha1Signature`. -/
def Signature.rsaSha1Signature (self : Signature) : Str :=
  self.baseString

/-- `Signature::plainTextSignature`. -/
def Signature.plainTextSignature (self : Signature) : Str :=
  self.clientSecret ++ lit "?" ++ self.tokenSecret

/-- `Signature::get`: stores its arguments in the object, then dispatches on
the method; the result is the returned string and the object afterwards. -/
def Signature.get (crypto : Crypto) (self : Signature)
    (baseString clientSecret tokenSecret : Str) : Str × Signature :=
  let self := { self with
    baseString := baseString, clientSecret := clientSecret, tokenSecret := tokenSecret }
  match self.method with
  | .RSA_SHA1 => (self.rsaSha1Signature, self)
  | .PLAINTEXT => (self.plainTextSignature, self)
  | .HMAC_SHA1 => (self.hmacSha1Signature crypto, self)

/-- The `Signature` object after a sequence of earlier calls of `get`, each
given by its three arguments. -/
def Signature.afterCalls (crypto : Crypto) (self : Signature)
    (calls : List (Str × Str × Str)) : Signature :=
  calls.foldl (fun s a => (s.get crypto a.1 a.2.1 a.2.2).2) self

/-! ## Reference definitions, following the words of the specification -/

/-- The characters that pass through percent-encoding unchanged:
`[A-Za-z0-9]` and `-`, `.`, `_`, `~`. -/
def isUnreservedSpec (c : Byte) : Bool :=
  (decide (48 ≤ c.val) && decide (c.val ≤ 57)) ||
  (decide (65 ≤ c.val) && decide (c.val ≤ 90)) ||
  (decide (97 ≤ c.val) && decide (c.val ≤ 122)) ||
  c.val == 45 || c.val == 46 || c.val == 95 || c.val == 126

/-- An uppercase hexadecimal digit for a value below sixteen. -/
def hexDigitSpec (d : Nat) : Byte :=
  if d < 10 then Fin.ofNat (48 + d) else Fin.ofNat (55 + d)

/-- The reference encoding of one byte: the byte itself when unreserved,
otherwise `%` and the two uppercase hexadecimal digits of its value. -/
def encodeByteSpec (c : Byte) : Str :=
  if isUnreservedSpec c then [c]
  else [37, hexDigitSpec (c.val / 16), hexDigitSpec (c.val % 16)]

/-- The reference percent-encoding: the concatenation of the encodings of the
bytes, in order. -/
def urlEncodeSpec (s : Str) : Str := s.flatMap encodeByteSpec

/-- Whether the text `pat` occurs somewhere in `s`. -/
def containsText (pat s : Str) : Bool :=
  (List.range (s.length + 1)).any fun k => pat.isPrefixOf (s.drop k)

/-- The reference normalisation: `http://` is put in front when the URL has no
`://` in it, and `/` is put behind when, after that, no `/` follows the first
`://`. -/
def normalizeUrlSpec (url : Str) : Str :=
  let pre := if containsText (lit "://") url then [] else lit "http://"
  let afterScheme := (pre ++ url).drop (find (pre ++ url) (lit "://") 0 + 3)
  let post := if afterScheme.contains 47 then [] else lit "/"
  pre ++ url ++ post

/-- The loop of `Utility::urlDecode` as a function of the part of the string
that is not yet read (the characters from index `i` on); `fuel` and `none` are
as in `urlDecodeLoop`. -/
def decodeRest : Nat → Str → OStream → Option OStream
  | 0, _, _ => none
  | _ + 1, [], decodedStream => some decodedStream
  | fuel + 1, c :: rest, decodedStream =>
    let currentCharacter := toUInt (charToInt c)
    if currentCharacter = 37 then
      let currentCharacter := extractHexUInt (rest.take 2) currentCharacter
      let currentCharacter := if currentCharacter = 43 then 32 else currentCharacter
      decodeRest fuel (rest.drop 2) (decodedStream.putChar (toChar currentCharacter))
    else
      let currentCharacter := if currentCharacter = 43 then 32 else currentCharacter
      decodeRest fuel rest (decodedStream.putChar (toChar currentCharacter))

/-- The byte with every `+` replaced by a space. -/
def plusToSpace (c : Byte) : Byte := if c.val = 43 then 32 else c

/-- An uppercase hexadecimal digit: `0` to `9` or `A` to `F`. -/
def isUpperHexDigit (c : Byte) : Bool :=
  (decide (48 ≤ c.val) && decide (c.val ≤ 57)) || (decide (65 ≤ c.val) && decide (c.val ≤ 70))

/-- Whether every `%` of the string is immediately followed by two uppercase
hexadecimal digits. -/
def percentsAreEscapes : Str → Bool
  | [] => true
  | c :: cs =>
    (if c.val = 37 then
      match cs with
      | x :: y :: _ => isUpperHexDigit x && isUpperHexDigit y
      | _ => false
    else true) && percentsAreEscapes cs

/-! ## The OAuth 2.0 service

The sources hold the tests of the OAuth 2.0 service (`test/oauth2/ServiceTests.h`)
but not the service itself; what follows is written from the specification. -/

/-- Modelled from the spec: the grant types of the OAuth 2.0 service, whose
header `oauth2/Service.h` is not among the sources. -/
inductive GrantType where
  | AUTH_CODE
  | IMPLICIT
  | OWNER_CREDENTIALS
  | CLIENT_CREDENTIALS
  deriving DecidableEq, Repr

/-- Modelled from the spec: the three strategies of `signRequest`, which the
missing `oauth2/ServiceBuilder.h` selects. -/
inductive SignatureType where
  | HEADER
  | QUERY
  | BODY
  deriving DecidableEq, Repr

/-- Modelled from the spec: the configuration of an OAuth 2.0 service, fixed
at construction (the missing `oauth2/ServiceConfiguration.h`). -/
structure ServiceConfiguration where
  /-- The grant type. -/
  grantType : GrantType
  /-- The signing strategy. -/
  signatureType : SignatureType
  /-- The authorization endpoint. -/
  authEndpoint : Str
  /-- The token endpoint. -/
  tokenEndpoint : Str
  /-- The client identifier. -/
  clientId : Str
  /-- The redirect URI. -/
  redirectUri : Str
  /-- The user name of the owner-credentials grant. -/
  username : Str
  /-- The password of the owner-credentials grant. -/
  password : Str

/-- Modelled from the spec: the configuration that the missing
`oauth2/ServiceBuilder` starts from; the query strategy is the one in force
when none is chosen, as the test `sign_request_query` records. -/
def ServiceConfiguration.initial (grantType : GrantType) : ServiceConfiguration :=
  { grantType := grantType, signatureType := .QUERY, authEndpoint := [], tokenEndpoint := [],
    clientId := [], redirectUri := [], username := [], password := [] }

/-- Modelled from the spec: the token of the missing `oauth2/Token.h`; an
absent refresh credential or expiry is the "undefined" sentinel. -/
structure Token where
  /-- The access credential. -/
  accessToken : Str
  /-- The type tag, when given. -/
  tokenType : Option Str
  /-- The refresh credential, when given. -/
  refreshToken : Option Str
  /-- The expiry in seconds, when given. -/
  expiresIn : Option Str

/-- Modelled from the spec: the request of the missing `HttpRequest.h`:
method, URL, headers and body. -/
structure HttpRequest where
  /-- The HTTP method. -/
  method : Str
  /-- The URL. -/
  url : Str
  /-- The headers, in the order they were added. -/
  headers : List (Str × Str)
  /-- The body. -/
  body : Str

/-- Modelled from the spec: the error taxonomy of the deferred results; the
token-exchange error is the `TokenException` of the tests and carries the
error code. -/
inductive Failure where
  | tokenException (code : Str)
  | parseError
  | transport (message : Str)

/-- Modelled from the spec: the capabilities that the service consumes and
does not implement: the transport, which returns the raw response body or
fails, and the JSON parser primitive, which yields the members of a JSON
object with each value as text, or nothing for a body that is not one. -/
structure Capabilities where
  /-- The request-sending capability. -/
  sendRequest : HttpRequest → Except Failure Str
  /-- The JSON parser primitive. -/
  parseJson : Str → Option (List (Str × Str))

/-- The first value stored under `key`, if any. -/
def lookupField (key : Str) : List (Str × Str) → Option Str
  | [] => none
  | (k, v) :: rest => if k = key then some v else lookupField key rest

/-- Modelled from the spec: the rendering of a parameter collection in
insertion order: `key=value` pairs joined by `&`, keys and values
percent-encoded at render time (the missing `ParameterList`). -/
def renderParameters (parameters : List (Str × Str)) : Str :=
  (lit "&").intercalate (parameters.map fun kv => urlEncode kv.1 ++ lit "=" ++ urlEncode kv.2)

/-- The pieces of `s` between the occurrences of the byte `sep`. -/
def splitAt (sep : Byte) : Str → List Str
  | [] => [[]]
  | c :: cs =>
    if c = sep then [] :: splitAt sep cs
    else
      match splitAt sep cs with
      | [] => [[c]]
      | w :: ws => (c :: w) :: ws

/-- Modelled from the spec: the tokenizer of form-encoded text, `key=value`
pairs joined by `&` and percent-decoded with `urlDecode`. -/
def parseForm (s : Str) : List (Str × Str) :=
  (splitAt 38 s).map fun piece =>
    let key := piece.takeWhile (fun c => c != 61)
    let value := (piece.dropWhile (fun c => c != 61)).drop 1
    ((urlDecode key).getD key, (urlDecode value).getD value)

/-- The query string of a URL: what stands between the first `?` and the
fragment. -/
def queryOf (url : Str) : Str :=
  ((url.dropWhile (fun c => c != 63)).drop 1).takeWhile (fun c => c != 35)

/-- The fragment of a URL: what follows the first `#`. -/
def fragmentOf (url : Str) : Str :=
  (url.dropWhile (fun c => c != 35)).drop 1

/-- Modelled from the spec: the response type of the authorize URL of a grant;
the grants without a redirect step have none. -/
def responseType : GrantType → Option Str
  | .AUTH_CODE => some (lit "code")
  | .IMPLICIT => some (lit "token")
  | .OWNER_CREDENTIALS => none
  | .CLIENT_CREDENTIALS => none

/-- Modelled from the spec: `getAuthorizeUrl(state)` of the missing
`oauth2/Service.cpp`: the authorization endpoint, `?`, and the parameters
`response_type`, `client_id`, `redirect_uri` and `state` rendered in that
order. -/
def getAuthorizeUrl (configuration : ServiceConfiguration) (state : Str) : Option Str :=
  (responseType configuration.grantType).map fun response =>
    configuration.authEndpoint ++ lit "?" ++
      renderParameters [(lit "response_type", response),
        (lit "client_id", configuration.clientId),
        (lit "redirect_uri", configuration.redirectUri),
        (lit "state", state)]

/-- Modelled from the spec: the interpretation of the members of a token
response or of a redirect fragment: an `error` member is looked for before
`access_token` is read and yields the token-exchange error with its code; an
absent `access_token` is a token-exchange error too. -/
def tokenOfFields (fields : List (Str × Str)) : Except Failure Token :=
  match lookupField (lit "error") fields with
  | some code => .error (.tokenException code)
  | none =>
    match lookupField (lit "access_token") fields with
    | none => .error (.tokenException (lit "access_token"))
    | some access =>
      .ok { accessToken := access,
            tokenType := lookupField (lit "token_type") fields,
            refreshToken := lookupField (lit "refresh_token") fields,
            expiresIn := lookupField (lit "expires_in") fields }

/-- Modelled from the spec: the POST request to the token endpoint with a
form-encoded body. -/
def tokenRequest (configuration : ServiceConfiguration) (parameters : List (Str × Str)) :
    HttpRequest :=
  { method := lit "POST", url := configuration.tokenEndpoint,
    headers := [(lit "Content-Type", lit "application/x-www-form-urlencoded")],
    body := renderParameters parameters }

/-- Modelled from the spec: one token exchange, the unit of deferred work:
build the request, invoke the transport, parse the response. A transport
failure is passed on unchanged and an unparsable body is a parse error. -/
def exchange (capabilities : Capabilities) (configuration : ServiceConfiguration)
    (parameters : List (Str × Str)) : Except Failure Token :=
  match capabilities.sendRequest (tokenRequest configuration parameters) with
  | .error failure => .error failure
  | .ok body =>
    match capabilities.parseJson body with
    | none => .error .parseError
    | some fields => tokenOfFields fields

/-- Modelled from the spec: `getAccessToken(input)` of the missing
`oauth2/Service.cpp`, by grant type; the result is what the returned future
resolves to. -/
def getAccessToken (capabilities : Capabilities) (configuration : ServiceConfiguration)
    (input : Str) : Except Failure Token :=
  match configuration.grantType with
  | .AUTH_CODE =>
    exchange capabilities configuration
      [(lit "grant_type", lit "authorization_code"),
       (lit "code", (lookupField (lit "code") (parseForm (queryOf input))).getD []),
       (lit "redirect_uri", configuration.redirectUri),
       (lit "client_id", configuration.clientId)]
  | .IMPLICIT => tokenOfFields (parseForm (fragmentOf input))
  | .OWNER_CREDENTIALS =>
    exchange capabilities configuration
      [(lit "grant_type", lit "password"),
       (lit "username", configuration.username),
       (lit "password", configuration.password)]
  | .CLIENT_CREDENTIALS =>
    exchange capabilities configuration [(lit "grant_type", lit "client_credentials")]

/-- Modelled from the spec: `refreshAccessToken(token)` of the missing
`oauth2/Service.cpp`: a token without a refresh credential is reported at
once, without a request. -/
def refreshAccessToken (capabilities : Capabilities) (configuration : ServiceConfiguration)
    (token : Token) : Except Failure Token :=
  match token.refreshToken with
  | none => .error (.tokenException (lit "refresh_token"))
  | some refresh =>
    exchange capabilities configuration
      [(lit "grant_type", lit "refresh_token"), (lit "refresh_token", refresh)]

/-- Modelled from the spec: `signRequest(request, token)` of the missing
`oauth2/Service.cpp`. Header: `Authorization` is the token type, when it is a
recognised alternative, or else `Bearer`, then the access credential. Query:
`access_token=<value>` is appended to the URL after `?`, or after `&` when the
URL already has a query string. Body: `access_token=<value>` is appended to
the body, after `&` when the body is not empty, and the form-encoded content
type is ensured. -/
def signRequest (recognised : Str → Bool) (configuration : ServiceConfiguration)
    (request : HttpRequest) (token : Token) : HttpRequest :=
  match configuration.signatureType with
  | .HEADER =>
    let scheme :=
      match token.tokenType with
      | some t => if recognised t then t else lit "Bearer"
      | none => lit "Bearer"
    { request with
      headers := request.headers ++ [(lit "Authorization", scheme ++ lit " " ++ token.accessToken)] }
  | .QUERY =>
    { request with
      url := request.url ++ (if request.url.contains 63 then lit "&" else lit "?")
        ++ lit "access_token=" ++ token.accessToken }
  | .BODY =>
    { request with
      headers :=
        if (lookupField (lit "Content-Type") request.headers).isSome then request.headers
        else request.headers ++ [(lit "Content-Type", lit "application/x-www-form-urlencoded")],
      body :=
        if request.body.isEmpty then lit "access_token=" ++ token.accessToken
        else request.body ++ lit "&access_token=" ++ token.accessToken }

/-- A transport and parser for the witness of the error responses: every
request is answered with the error body of the tests, which the parser reads
as one member `error` with the text `invalid_request`. -/
def errorCapabilities : Capabilities :=
  { sendRequest := fun _ => .ok (lit "\x7b\"error\":\"invalid_request\"\x7d"),
    parseJson := fun body =>
      if body = lit "\x7b\"error\":\"invalid_request\"\x7d" then
        some [(lit "error", lit "invalid_request")]
      else none }

/-! ## The signature engine -/

theorem Signature.get_method (crypto : Crypto) (self : Signature) (b c t : Str) :
    (self.get crypto b c t).2.method = self.method := by
  unfold Signature.get
  cases hm : self.method <;> simp [hm]

theorem Signature.afterCalls_method (crypto : Crypto) (calls : List (Str × Str × Str)) :
    ∀ self : Signature, (self.afterCalls crypto calls).method = self.method := by
  induction calls with
  | nil => intro self; rfl
  | cons a rest ih =>
    intro self
    show (Signature.afterCalls crypto (self.get crypto a.1 a.2.1 a.2.2).2 rest).method = _
    rw [ih, Signature.get_method]

/-- The string returned by `get` depends on the object only through its
method. -/
theorem Signature.get_fst_congr (crypto : Crypto) (s₁ s₂ : Signature)
    (h : s₁.method = s₂.method) (b c t : Str) :
    (s₁.get crypto b c t).1 = (s₂.get crypto b c t).1 := by
  unfold Signature.get
  simp only [h]

/-- C3: for the method PLAINTEXT, whatever the object held before, `get`
returns the client secret, a question mark and the token secret, both secrets
raw; this differs from the ampersand-joined string of the claim. -/
theorem C3_plaintext_joins_with_question_mark (crypto : Crypto)
    (b₀ c₀ t₀ b c t : Str) :
    (Signature.get crypto ⟨.PLAINTEXT, b₀, c₀, t₀⟩ b c t).1 = c ++ lit "?" ++ t ∧
    (Signature.get crypto ⟨.PLAINTEXT, b₀, c₀, t₀⟩ b c t).1 ≠ c ++ lit "&" ++ t := by
  have h : (Signature.get crypto ⟨.PLAINTEXT, b₀, c₀, t₀⟩ b c t).1 = c ++ lit "?" ++ t := rfl
  refine ⟨h, ?_⟩
  rw [h]
  intro e
  have e' : lit "?" ++ t = lit "&" ++ t := by
    simpa [List.append_assoc] using e
  have e'' := List.head_eq_of_cons_eq (show (63 : Byte) :: t = (38 : Byte) :: t from e')
  exact absurd e'' (by decide)

/-- C4: for the method HMAC_SHA1, whatever the object held before, `get`
returns the percent-encoding of the base64 text of the 20-byte HMAC-SHA1
digest of the whole base string under the key made of the client secret, an
ampersand and the token secret; the ampersand is in the key also when a
secret is empty. -/
theorem C4_hmac_sha1_signature (crypto : Crypto) (b₀ c₀ t₀ b c t : Str) :
    (Signature.get crypto ⟨.HMAC_SHA1, b₀, c₀, t₀⟩ b c t).1 =
        urlEncode (crypto.base64Encode (crypto.hmacSha1 b (c ++ lit "&" ++ t)) 20) ∧
    (Signature.get crypto ⟨.HMAC_SHA1, b₀, c₀, t₀⟩ b c []).1 =
        urlEncode (crypto.base64Encode (crypto.hmacSha1 b (c ++ [38])) 20) ∧
    (Signature.get crypto ⟨.HMAC_SHA1, b₀, c₀, t₀⟩ b [] []).1 =
        urlEncode (crypto.base64Encode (crypto.hmacSha1 b [38]) 20) := by
  refine ⟨rfl, ?_, ?_⟩
  · show urlEncode (crypto.base64Encode (crypto.hmacSha1 b (c ++ lit "&" ++ [])) 20) = _
    rw [List.append_nil]; rfl
  · rfl

/-- C6: for the method RSA_SHA1, whatever the object held before and whatever
the secrets, `get` returns the base string unchanged. -/
theorem C6_rsa_sha1_returns_base_string (crypto : Crypto) (b₀ c₀ t₀ b c t : Str) :
    (Signature.get crypto ⟨.RSA_SHA1, b₀, c₀, t₀⟩ b c t).1 = b := rfl

/-- C7: the string returned by `get` is a function of the method and the three
arguments only: two objects with the same method return the same string
whatever their stored fields hold, and an object that has served any sequence
of earlier calls returns what a fresh object of the same method returns. -/
theorem C7_get_depends_on_method_and_arguments_only (crypto : Crypto)
    (m : SignatureMethod) (b₁ c₁ t₁ b₂ c₂ t₂ b c t : Str)
    (calls : List (Str × Str × Str)) :
    (Signature.get crypto ⟨m, b₁, c₁, t₁⟩ b c t).1 =
        (Signature.get crypto ⟨m, b₂, c₂, t₂⟩ b c t).1 ∧
    (Signature.get crypto ((Signature.new m).afterCalls crypto calls) b c t).1 =
        (Signature.get crypto (Signature.new m) b c t).1 :=
  ⟨Signature.get_fst_congr crypto _ _ rfl b c t,
   Signature.get_fst_congr crypto _ _ (Signature.afterCalls_method crypto calls _) b c t⟩

/-! ## Integer conversions within range -/

theorem toSizeT_natCast (n : Nat) (h : n < 18446744073709551616) : toSizeT (n : Int) = n := by
  unfold toSizeT
  omega

theorem toInt32_natCast (n : Nat) (h : n < 2147483648) : toInt32 (n : Int) = n := by
  unfold toInt32
  simp only
  split <;> omega

/-! ## Searching in strings -/

theorem lit_sep : lit "://" = [58, 47, 47] := by decide

theorem lit_slash : lit "/" = [47] := by decide

/-- The text `://` does not overlap itself: it cannot start inside a string
free of it and end inside a following copy of itself. -/
theorem sep_not_prefix_cons (x : Byte) (p t : Str) (h : ¬ lit "://" <:+: x :: p) :
    ¬ lit "://" <+: x :: (p ++ lit "://" ++ t) := by
  rw [lit_sep] at h ⊢
  intro hpre
  match p, h, hpre with
  | [], _, hpre =>
    simp only [List.nil_append, List.cons_append, List.cons_prefix_cons] at hpre
    exact absurd hpre.2.1 (by decide)
  | [y], _, hpre =>
    simp only [List.nil_append, List.cons_append, List.cons_prefix_cons] at hpre
    exact absurd hpre.2.2.1 (by decide)
  | y :: z :: q, h, hpre =>
    simp only [List.cons_append, List.cons_prefix_cons] at hpre
    apply h
    obtain ⟨h1, h2, h3, -⟩ := hpre
    subst h1 h2 h3
    exact ⟨[], q, rfl⟩

theorem findAux_at_start (pat s : Str) (k : Nat) (h : pat <+: s) :
    findAux pat s k = some k := by
  cases s with
  | nil =>
    have : pat = [] := List.prefix_nil.mp h
    subst this
    rfl
  | cons c cs =>
    unfold findAux
    rw [if_pos (List.isPrefixOf_iff_prefix.mpr h)]

theorem findAux_cons_skip (pat : Str) (c : Byte) (cs : Str) (k : Nat)
    (h : ¬ pat <+: c :: cs) : findAux pat (c :: cs) k = findAux pat cs (k + 1) := by
  conv => lhs; unfold findAux
  rw [if_neg (fun hp => h (List.isPrefixOf_iff_prefix.mp hp))]

/-- The first `://` of a string that starts with a part free of `://`
followed by `://` is found right after that part. -/
theorem findAux_sep (p t : Str) (h : ¬ lit "://" <:+: p) (k : Nat) :
    findAux (lit "://") (p ++ lit "://" ++ t) k = some (k + p.length) := by
  induction p generalizing k with
  | nil =>
    rw [List.nil_append]
    exact findAux_at_start _ _ _ (List.prefix_append _ _)
  | cons x p ih =>
    have hx := sep_not_prefix_cons x p t h
    have hp : ¬ lit "://" <:+: p := fun hi => h (List.infix_cons hi)
    rw [List.cons_append, List.cons_append, findAux_cons_skip _ _ _ _ hx, ih hp]
    simp only [List.length_cons]
    congr 1
    omega

/-- The first `/` of a string that starts with a part free of `/` followed by
`/` is found right after that part. -/
theorem findAux_slash (h r : Str) (hh : (47 : Byte) ∉ h) (k : Nat) :
    findAux [47] (h ++ 47 :: r) k = some (k + h.length) := by
  induction h generalizing k with
  | nil => exact findAux_at_start _ _ _ ⟨r, rfl⟩
  | cons x h ih =>
    have hx : ¬ [(47 : Byte)] <+: x :: (h ++ 47 :: r) := by
      rw [List.cons_prefix_cons]
      rintro ⟨e, -⟩
      exact hh (by rw [e]; exact List.mem_cons_self _ _)
    have hh' : (47 : Byte) ∉ h := fun hm => hh (List.mem_cons_of_mem _ hm)
    rw [List.cons_append, findAux_cons_skip _ _ _ _ hx, ih hh']
    simp only [List.length_cons]
    congr 1
    omega

theorem find_sep (p t : Str) (h : ¬ lit "://" <:+: p) :
    find (p ++ lit "://" ++ t) (lit "://") 0 = p.length := by
  unfold find
  rw [if_pos (Nat.zero_le _), List.drop_zero, findAux_sep p t h 0]
  simp

theorem find_slash (p h r : Str) (hh : (47 : Byte) ∉ h) :
    find (p ++ lit "://" ++ h ++ 47 :: r) (lit "/") (p.length + 3) = p.length + 3 + h.length := by
  have hd : (p ++ lit "://" ++ h ++ 47 :: r).drop (p.length + 3) = h ++ 47 :: r := by
    have hl : (p ++ lit "://").length = p.length + 3 := by simp [lit_sep]
    rw [List.append_assoc (p ++ lit "://"), ← hl, List.drop_left]
  unfold find
  rw [if_pos (by simp [lit_sep]), hd, lit_slash, findAux_slash h r hh]
  simp

/-! ## Splitting a URL into host and resource -/

/-- The positions computed by `getHostPosition` for a URL made of a part free
of `://`, then `://`, a host free of `/`, a `/` and a rest, as long as the
position of that `/` fits an `int`. -/
theorem getHostPosition_split (p h r : Str) (hp : ¬ lit "://" <:+: p)
    (hh : (47 : Byte) ∉ h) (hlen : p.length + 3 + h.length < 2147483648) :
    getHostPosition (p ++ lit "://" ++ h ++ 47 :: r) =
      (((p.length + 3 : Nat) : Int), ((p.length + 3 + h.length : Nat) : Int)) := by
  have h1 : find (p ++ lit "://" ++ h ++ 47 :: r) (lit "://") 0 = p.length := by
    rw [List.append_assoc (p ++ lit "://")]
    exact find_sep p _ hp
  have hl : (lit "://").length = 3 := by decide
  have h2 : toInt32 (toSizeT ((p.length : Int) + ((3 : Nat) : Int))) = ((p.length + 3 : Nat) : Int) := by
    have e : (p.length : Int) + ((3 : Nat) : Int) = ((p.length + 3 : Nat) : Int) := by
      push_cast; rfl
    rw [e, toSizeT_natCast _ (by omega), toInt32_natCast _ (by omega)]
  unfold getHostPosition
  simp only [h1, hl, h2]
  rw [toSizeT_natCast _ (by omega), find_slash p h r hh, toInt32_natCast _ hlen]

theorem hostFromUrl_split (p h r : Str) (hp : ¬ lit "://" <:+: p)
    (hh : (47 : Byte) ∉ h) (hlen : p.length + 3 + h.length < 2147483648) :
    hostFromUrl (p ++ lit "://" ++ h ++ 47 :: r) = some h := by
  have hd : (p ++ lit "://" ++ h ++ 47 :: r).drop (p.length + 3) = h ++ 47 :: r := by
    have hl : (p ++ lit "://").length = p.length + 3 := by simp [lit_sep]
    rw [List.append_assoc (p ++ lit "://"), ← hl, List.drop_left]
  have hsub : ((p.length + 3 + h.length : Nat) : Int) - ((p.length + 3 : Nat) : Int)
      = ((h.length : Nat) : Int) := by
    push_cast; ring
  unfold hostFromUrl
  simp only [getHostPosition_split p h r hp hh hlen, hsub]
  rw [toInt32_natCast _ (by omega), toSizeT_natCast _ (by omega), toSizeT_natCast _ (by omega)]
  unfold substr
  rw [if_neg (by simp [lit_sep]), hd, List.take_left]

theorem resourceFromUrl_split (p h r : Str) (hp : ¬ lit "://" <:+: p)
    (hh : (47 : Byte) ∉ h) (hlen : p.length + 3 + h.length < 2147483648) :
    resourceFromUrl (p ++ lit "://" ++ h ++ 47 :: r) = some (47 :: r) := by
  have hd : (p ++ lit "://" ++ h ++ 47 :: r).drop (p.length + 3 + h.length) = 47 :: r := by
    have hl : (p ++ lit "://" ++ h).length = p.length + 3 + h.length := by
      simp [lit_sep]; omega
    rw [← hl, List.drop_left]
  unfold resourceFromUrl
  simp only [getHostPosition_split p h r hp hh hlen]
  rw [toSizeT_natCast _ (by omega)]
  unfold substrToEnd
  rw [if_neg (by simp [lit_sep]; omega), hd]

theorem sep_not_infix_replicate (n : Nat) : ¬ lit "://" <:+: List.replicate n (97 : Byte) := by
  intro hi
  have hm : (58 : Byte) ∈ List.replicate n (97 : Byte) :=
    hi.subset (by rw [lit_sep]; exact List.mem_cons_self _ _)
  exact absurd (List.mem_replicate.mp hm).2 (by decide)

theorem slash_not_mem_replicate (n : Nat) : (47 : Byte) ∉ List.replicate n (97 : Byte) := by
  intro hm
  exact absurd (List.mem_replicate.mp hm).2 (by decide)

/-- The positions computed for a URL whose `://` ends at byte `2^31`: the
first does not fit an `int` and becomes negative, and the search for `/`
then starts beyond the end of the string. -/
theorem getHostPosition_huge (p t : Str) (hp : ¬ lit "://" <:+: p)
    (hlen : p.length = 2147483645) (ht : t.length < 2147483648) :
    getHostPosition (p ++ lit "://" ++ t) = (-2147483648, -1) := by
  have h1 := find_sep p t hp
  have hl : (lit "://").length = 3 := by decide
  have h2 : toInt32 (toSizeT (((2147483645 : Nat) : Int) + ((3 : Nat) : Int))) = -2147483648 := by
    decide
  have h3 : toSizeT (-2147483648) = 18446744071562067968 := by decide
  have h4 : toInt32 ((npos : Nat) : Int) = -1 := by decide
  have h5 : find (p ++ lit "://" ++ t) (lit "/") 18446744071562067968 = npos := by
    unfold find
    rw [if_neg (by simp [lit_sep]; omega)]
  unfold getHostPosition
  simp only [h1, hl, hlen, h2, h3, h5, h4]

theorem hostFromUrl_huge (p t : Str) (hp : ¬ lit "://" <:+: p)
    (hlen : p.length = 2147483645) (ht : t.length < 2147483648) :
    hostFromUrl (p ++ lit "://" ++ t) = none := by
  have h3 : toSizeT (-2147483648) = 18446744071562067968 := by decide
  unfold hostFromUrl
  simp only [getHostPosition_huge p t hp hlen ht, h3]
  unfold substr
  rw [if_pos (by simp [lit_sep]; omega)]

theorem resourceFromUrl_huge (p t : Str) (hp : ¬ lit "://" <:+: p)
    (hlen : p.length = 2147483645) (ht : t.length < 2147483648) :
    resourceFromUrl (p ++ lit "://" ++ t) = none := by
  have h3 : toSizeT (-1) = 18446744073709551615 := by decide
  unfold resourceFromUrl
  simp only [getHostPosition_huge p t hp hlen ht, h3]
  unfold substrToEnd
  rw [if_pos (by simp [lit_sep]; omega)]

/-! ## The two regular expressions of `normalizeUrl` -/

theorem drop_after_sep (url b : Str) (k : Nat) (h : url.drop k = lit "://" ++ b) :
    url.drop (k + 3) = b := by
  rw [← List.drop_drop 3 k url, h, lit_sep]
  rfl

/-- The expression `.*://.*` matches exactly the strings that split around a
`://` into two runs of characters matched by `.`. -/
theorem hasProtocolLanguage_iff (url : Str) :
    hasProtocolLanguage url = true ↔
      ∃ a b, url = a ++ lit "://" ++ b ∧ a.all matchesDot = true ∧ b.all matchesDot = true := by
  unfold hasProtocolLanguage
  rw [List.any_eq_true]
  constructor
  · rintro ⟨k, -, hk⟩
    simp only [Bool.and_eq_true] at hk
    obtain ⟨⟨ha, hpre⟩, hb⟩ := hk
    obtain ⟨b, hb'⟩ := List.isPrefixOf_iff_prefix.mp hpre
    have hd := drop_after_sep url b k hb'.symm
    refine ⟨url.take k, b, ?_, ha, ?_⟩
    · rw [List.append_assoc, hb', List.take_append_drop]
    · rw [← hd]; exact hb
  · rintro ⟨a, b, hu, ha, hb⟩
    have hdk : url.drop a.length = lit "://" ++ b := by
      rw [hu, List.append_assoc, List.drop_left]
    refine ⟨a.length, ?_, ?_⟩
    · rw [List.mem_range, hu]
      simp only [List.length_append]
      omega
    · simp only [Bool.and_eq_true]
      refine ⟨⟨?_, ?_⟩, ?_⟩
      · rw [hu, List.append_assoc, List.take_left]; exact ha
      · rw [hdk]; exact List.isPrefixOf_iff_prefix.mpr (List.prefix_append _ _)
      · rw [drop_after_sep url b a.length hdk]; exact hb

/-- The expression `.*://.*/.*` matches exactly the strings that split around
a `://` and a later `/` into three runs of characters matched by `.`. -/
theorem hasSlashAfterHostLanguage_iff (url : Str) :
    hasSlashAfterHostLanguage url = true ↔
      ∃ a b c, url = a ++ lit "://" ++ b ++ 47 :: c ∧ a.all matchesDot = true ∧
        b.all matchesDot = true ∧ c.all matchesDot = true := by
  unfold hasSlashAfterHostLanguage
  rw [List.any_eq_true]
  constructor
  · rintro ⟨k, -, hk⟩
    simp only [Bool.and_eq_true, List.any_eq_true, decide_eq_true_eq] at hk
    obtain ⟨⟨ha, hpre⟩, j, -, ⟨⟨hkj, hb⟩, hsl⟩, hc⟩ := hk
    obtain ⟨t, ht⟩ := List.isPrefixOf_iff_prefix.mp hpre
    obtain ⟨c, hc'⟩ := List.isPrefixOf_iff_prefix.mp hsl
    have hd := drop_after_sep url t k ht.symm
    have hj : (url.drop (k + 3)).drop (j - (k + 3)) = 47 :: c := by
      rw [List.drop_drop, show k + 3 + (j - (k + 3)) = j by omega, ← hc', lit_slash]
      rfl
    have hj1 : url.drop (j + 1) = c := by
      rw [← List.drop_drop 1 j url, ← hc', lit_slash]
      rfl
    refine ⟨url.take k, (url.drop (k + 3)).take (j - (k + 3)), c, ?_, ha, hb, ?_⟩
    · rw [List.append_assoc, List.append_assoc, ← hj, List.take_append_drop, hd, ht,
        List.take_append_drop]
    · rw [← hj1]; exact hc
  · rintro ⟨a, b, c, hu, ha, hb, hc⟩
    have hdk : url.drop a.length = lit "://" ++ (b ++ 47 :: c) := by
      rw [hu, List.append_assoc, List.append_assoc, List.drop_left]
    have hd3 := drop_after_sep url _ a.length hdk
    have hlen : url.length = a.length + 3 + b.length + (c.length + 1) := by
      rw [hu]; simp [lit_sep]; omega
    have hdj : url.drop (a.length + 3 + b.length) = 47 :: c := by
      rw [← List.drop_drop b.length (a.length + 3) url, hd3, List.drop_left]
    refine ⟨a.length, ?_, ?_⟩
    · rw [List.mem_range]; omega
    · simp only [Bool.and_eq_true, List.any_eq_true, decide_eq_true_eq]
      refine ⟨⟨?_, ?_⟩, a.length + 3 + b.length, ?_, ⟨⟨?_, ?_⟩, ?_⟩, ?_⟩
      · rw [hu, List.append_assoc, List.append_assoc, List.take_left]; exact ha
      · rw [hdk]; exact List.isPrefixOf_iff_prefix.mpr (List.prefix_append _ _)
      · rw [List.mem_range]; omega
      · omega
      · rw [hd3, show a.length + 3 + b.length - (a.length + 3) = b.length by omega,
          List.take_left]
        exact hb
      · rw [hdj, lit_slash]
        exact List.isPrefixOf_iff_prefix.mpr ⟨c, rfl⟩
      · rw [← List.drop_drop 1 (a.length + 3 + b.length) url, hdj]
        exact hc

/-! ## The shape of a normalised URL -/

/-- A URL that splits around `://` and a later `/` into runs free of line
terminators is the string that `normalizeUrl` returns for it. -/
theorem normalizeUrlValue_of_split (a b c : Str) (ha : a.all matchesDot = true)
    (hb : b.all matchesDot = true) (hc : c.all matchesDot = true) :
    normalizeUrlValue (a ++ lit "://" ++ b ++ 47 :: c) = a ++ lit "://" ++ b ++ 47 :: c := by
  have h1 : hasProtocolLanguage (a ++ lit "://" ++ b ++ 47 :: c) = true := by
    rw [hasProtocolLanguage_iff]
    refine ⟨a, b ++ 47 :: c, by simp only [List.append_assoc], ha, ?_⟩
    rw [List.all_append, hb, Bool.true_and, List.all_cons, hc, Bool.and_true]
    decide
  have h2 : hasSlashAfterHostLanguage (a ++ lit "://" ++ b ++ 47 :: c) = true := by
    rw [hasSlashAfterHostLanguage_iff]
    exact ⟨a, b, c, rfl, ha, hb, hc⟩
  unfold normalizeUrlValue
  simp only [h1, h2, Bool.not_true, Bool.false_eq_true, if_false]

/-- Every normalised URL contains `://` and a `/` somewhere after it. -/
theorem normalizeUrlValue_shape (url : Str) :
    ∃ a b c, normalizeUrlValue url = a ++ lit "://" ++ b ++ 47 :: c := by
  have key : ∀ n : Str, (∃ a b, n = a ++ lit "://" ++ b) →
      ∃ a b c, (if (!hasSlashAfterHostLanguage n) = true then n ++ lit "/" else n)
        = a ++ lit "://" ++ b ++ 47 :: c := by
    rintro n ⟨a, b, hn⟩
    cases hs : hasSlashAfterHostLanguage n with
    | true =>
      obtain ⟨a', b', c', hn', -⟩ := (hasSlashAfterHostLanguage_iff n).mp hs
      exact ⟨a', b', c', by simpa using hn'⟩
    | false =>
      refine ⟨a, b, [], ?_⟩
      simp only [Bool.not_false, if_true]
      rw [hn, lit_slash]
  unfold normalizeUrlValue
  cases hp : hasProtocolLanguage url with
  | true =>
    obtain ⟨a, b, hu, -⟩ := (hasProtocolLanguage_iff url).mp hp
    simpa using key url ⟨a, b, hu⟩
  | false =>
    have := key (lit "http://" ++ url) ⟨lit "http", url, by
      rw [show lit "http://" = lit "http" ++ lit "://" by decide]⟩
    simpa using this

theorem exists_first_slash (t : Str) (hm : (47 : Byte) ∈ t) :
    ∃ h r, t = h ++ 47 :: r ∧ (47 : Byte) ∉ h := by
  induction t with
  | nil => exact absurd hm (List.not_mem_nil _)
  | cons x t ih =>
    by_cases hx : x = 47
    · exact ⟨[], t, by rw [hx]; rfl, List.not_mem_nil _⟩
    · have hm' : (47 : Byte) ∈ t := by
        rcases List.mem_cons.mp hm with e | e
        · exact absurd e.symm hx
        · exact e
      obtain ⟨h, r, ht, hh⟩ := ih hm'
      refine ⟨x :: h, r, by rw [ht]; rfl, ?_⟩
      intro hmem
      rcases List.mem_cons.mp hmem with e | e
      · exact hx e.symm
      · exact hh e

/-- A string with a `://` and a later `/` splits at its first `://` and at the
first `/` after it. -/
theorem exists_first_split (a b c : Str) :
    ∃ p h r, a ++ lit "://" ++ b ++ 47 :: c = p ++ lit "://" ++ h ++ 47 :: r ∧
      ¬ lit "://" <:+: p ∧ (47 : Byte) ∉ h := by
  have hnil : ¬ lit "://" <:+: ([] : Str) := by
    intro hi
    have := List.infix_nil.mp hi
    exact absurd this (by decide)
  induction a with
  | nil =>
    obtain ⟨h, r, ht, hh⟩ := exists_first_slash (b ++ 47 :: c)
      (List.mem_append_right _ (List.mem_cons_self _ _))
    exact ⟨[], h, r, by simp only [List.append_assoc, List.nil_append, ht], hnil, hh⟩
  | cons x a ih =>
    by_cases hpre : lit "://" <+: x :: a ++ lit "://" ++ b ++ 47 :: c
    · obtain ⟨t, ht⟩ := hpre
      have hsuf : 47 :: c <:+ t := by
        have hs1 : 47 :: c <:+ x :: a ++ lit "://" ++ b ++ 47 :: c := List.suffix_append _ _
        have hs2 : t <:+ x :: a ++ lit "://" ++ b ++ 47 :: c := by
          rw [← ht]; exact List.suffix_append _ _
        apply List.suffix_of_suffix_length_le hs1 hs2
        · have := congrArg List.length ht
          simp [lit_sep] at this
          simp only [List.length_cons]
          omega
      obtain ⟨h, r, hhr, hh⟩ := exists_first_slash t (hsuf.subset (List.mem_cons_self _ _))
      refine ⟨[], h, r, ?_, hnil, hh⟩
      rw [← ht, hhr]
      simp only [List.append_assoc, List.nil_append]
    · obtain ⟨p, h, r, hs, hp, hh⟩ := ih
      refine ⟨x :: p, h, r, ?_, ?_, hh⟩
      · simp only [List.cons_append] at hs ⊢
        rw [hs]
      · intro hi
        rcases List.infix_cons_iff.mp hi with hpx | hpi
        · apply hpre
          have : x :: a ++ lit "://" ++ b ++ 47 :: c = x :: p ++ (lit "://" ++ h ++ 47 :: r) := by
            simp only [List.cons_append, List.append_assoc] at hs ⊢
            rw [hs]
          rw [this]
          exact hpx.trans (List.prefix_append _ _)
        · exact hp hpi

theorem all_matchesDot_replicate (n : Nat) :
    (List.replicate n (97 : Byte)).all matchesDot = true := by
  rw [List.all_eq_true]
  intro x hx
  rw [(List.mem_replicate.mp hx).2]
  decide

/-! ## The loop of `urlEncode` -/

/-- One iteration appends the encoding of its character, whatever formatting
flags earlier iterations have left, and leaves the field width at zero. -/
theorem urlEncodeStep_spec (os : OStream) (c : Byte) (hw : os.width = 0) :
    (urlEncodeStep os c).buf = os.buf ++ encodeByte c ∧ (urlEncodeStep os c).width = 0 := by
  unfold encodeByte urlEncodeStep
  split
  · simp [OStream.putChar, OStream.put, OStream.new, hw]
  · simp [OStream.putUInt, OStream.put, OStream.setHex, OStream.setw, OStream.setfill,
      OStream.setUppercase, OStream.new, hw]

theorem foldl_urlEncodeStep (data : Str) :
    ∀ os : OStream, os.width = 0 →
      (data.foldl urlEncodeStep os).buf = os.buf ++ data.flatMap encodeByte := by
  induction data with
  | nil => intro os _; simp
  | cons c cs ih =>
    intro os hw
    obtain ⟨hb, hw'⟩ := urlEncodeStep_spec os c hw
    rw [List.foldl_cons, ih _ hw', hb, List.flatMap_cons, List.append_assoc]

/-- The output of `urlEncode` is the concatenation of the encodings of the
characters. -/
theorem urlEncode_eq_flatMap (data : Str) : urlEncode data = data.flatMap encodeByte := by
  unfold urlEncode
  rw [foldl_urlEncodeStep data OStream.new rfl]
  rfl

set_option maxRecDepth 100000 in
/-- A byte below `0x80` is encoded as the reference definition says. -/
theorem encodeByte_ascii : ∀ c : Byte, c.val < 128 → encodeByte c = encodeByteSpec c := by
  decide

set_option maxRecDepth 100000 in
/-- A byte from `0x80` on is written as `%FFFFFF` and its two hexadecimal
digits, the eight digits of its sign-extended value. -/
theorem encodeByte_high : ∀ c : Byte, 128 ≤ c.val →
    encodeByte c = lit "%FFFFFF" ++ [hexDigitSpec (c.val / 16), hexDigitSpec (c.val % 16)] := by
  decide

/-- On strings of bytes below `0x80`, `urlEncode` is the reference encoding. -/
theorem urlEncode_ascii (data : Str) (h : ∀ c ∈ data, c.val < 128) :
    urlEncode data = urlEncodeSpec data := by
  rw [urlEncode_eq_flatMap]
  unfold urlEncodeSpec
  induction data with
  | nil => rfl
  | cons c cs ih =>
    rw [List.flatMap_cons, List.flatMap_cons, encodeByte_ascii c (h c (List.mem_cons_self _ _)),
      ih (fun x hx => h x (List.mem_cons_of_mem _ hx))]

/-! ## Claims on percent-encoding -/

/-- C1: the round trip fails on the string `+`: encoding gives `%2B`, and
decoding that gives a space, because the test for `+` in `urlDecode` also
runs on the value read from an escape. -/
theorem C1_round_trip_turns_plus_into_space :
    urlEncode (lit "+") = lit "%2B" ∧
    urlDecode (urlEncode (lit "+")) = some (lit " ") ∧
    urlDecode (urlEncode (lit "+")) ≠ some (lit "+") := by
  decide

/-- C2: for the byte `0xE9` the code writes `%FFFFFFE9`, eight hexadecimal
digits of the sign-extended value, where the reference definition has `%E9`;
the redirect URI of the claim is encoded as the claim says. -/
theorem C2_urlEncode_sign_extends_high_byte :
    urlEncode [233] = lit "%FFFFFFE9" ∧
    urlEncodeSpec [233] = lit "%E9" ∧
    urlEncode [233] ≠ urlEncodeSpec [233] ∧
    urlEncode (lit "https://client.example.com/cb")
      = lit "https%3A%2F%2Fclient.example.com%2Fcb" := by
  decide

/-- C5: the escape `%2B`, which denotes the byte `0x2B`, is decoded to a space
(byte `0x20`), in either letter case of the digit. -/
theorem C5_urlDecode_escape_2B_gives_space :
    urlDecode (lit "%2B") = some [32] ∧
    urlDecode (lit "%2b") = some [32] ∧
    urlDecode (lit "%2B") ≠ some [43] := by
  decide

/-! ## Claims on URLs -/

/-- C8, as amended: for a URL made of a part `p` free of `://`, then `://`, a
host `h` free of `/`, a `/` and a rest `r`, where the `/` lies before byte
`2^31`, `hostFromUrl` returns `h`, `resourceFromUrl` returns `/` followed by
`r`, and the URL is `p`, `://`, the host and the resource put together. -/
theorem C8_host_and_resource_of_url (p h r : Str) (hp : ¬ lit "://" <:+: p)
    (hh : (47 : Byte) ∉ h) (hlen : p.length + 3 + h.length < 2147483648) :
    ∃ host resource,
      hostFromUrl (p ++ lit "://" ++ h ++ lit "/" ++ r) = some host ∧
      resourceFromUrl (p ++ lit "://" ++ h ++ lit "/" ++ r) = some resource ∧
      host = h ∧ resource = lit "/" ++ r ∧
      p ++ lit "://" ++ h ++ lit "/" ++ r = p ++ lit "://" ++ host ++ resource := by
  have e : p ++ lit "://" ++ h ++ lit "/" ++ r = p ++ lit "://" ++ h ++ 47 :: r := by
    rw [lit_slash, List.append_assoc (p ++ lit "://" ++ h)]
    rfl
  refine ⟨h, 47 :: r, ?_, ?_, rfl, by rw [lit_slash]; rfl, e⟩
  · rw [e]; exact hostFromUrl_split p h r hp hh hlen
  · rw [e]; exact resourceFromUrl_split p h r hp hh hlen

/-- C8, witness: the URL `https://example.com/a/b`. -/
theorem C8_host_and_resource_of_url_witness :
    ∃ host resource,
      hostFromUrl (lit "https" ++ lit "://" ++ lit "example.com" ++ lit "/" ++ lit "a/b")
        = some host ∧
      resourceFromUrl (lit "https" ++ lit "://" ++ lit "example.com" ++ lit "/" ++ lit "a/b")
        = some resource ∧
      host = lit "example.com" ∧ resource = lit "/" ++ lit "a/b" ∧
      lit "https" ++ lit "://" ++ lit "example.com" ++ lit "/" ++ lit "a/b"
        = lit "https" ++ lit "://" ++ host ++ resource :=
  C8_host_and_resource_of_url (lit "https") (lit "example.com") (lit "a/b")
    (by decide) (by decide) (by decide)

/-- C8, counterexample: a URL of the claimed form whose first part has
`2^31 - 3` bytes, so that the host starts at byte `2^31`; the position does
not fit the `int` it is stored in, and both functions throw. -/
theorem C8_counterexample_position_beyond_int :
    ¬ lit "://" <:+: List.replicate 2147483645 (97 : Byte) ∧
    (47 : Byte) ∉ lit "h" ∧
    hostFromUrl (List.replicate 2147483645 (97 : Byte) ++ lit "://" ++ lit "h" ++ lit "/"
      ++ lit "r") ≠ some (lit "h") ∧
    resourceFromUrl (List.replicate 2147483645 (97 : Byte) ++ lit "://" ++ lit "h" ++ lit "/"
      ++ lit "r") ≠ some (lit "/" ++ lit "r") := by
  have e : List.replicate 2147483645 (97 : Byte) ++ lit "://" ++ lit "h" ++ lit "/" ++ lit "r"
      = List.replicate 2147483645 (97 : Byte) ++ lit "://" ++ (lit "h" ++ lit "/" ++ lit "r") := by
    simp only [List.append_assoc]
  have ht : (lit "h" ++ lit "/" ++ lit "r").length < 2147483648 := by decide
  refine ⟨sep_not_infix_replicate _, by decide, ?_, ?_⟩
  · rw [e, hostFromUrl_huge _ _ (sep_not_infix_replicate _) (List.length_replicate _ _) ht]
    exact fun h => Option.noConfusion h
  · rw [e, resourceFromUrl_huge _ _ (sep_not_infix_replicate _) (List.length_replicate _ _) ht]
    exact fun h => Option.noConfusion h

theorem containsText_iff (pat s : Str) : containsText pat s = true ↔ pat <:+: s := by
  unfold containsText
  rw [List.any_eq_true]
  constructor
  · rintro ⟨k, -, hk⟩
    obtain ⟨t, ht⟩ := List.isPrefixOf_iff_prefix.mp hk
    exact ⟨s.take k, t, by rw [List.append_assoc, ht, List.take_append_drop]⟩
  · rintro ⟨a, b, hs⟩
    refine ⟨a.length, ?_, ?_⟩
    · rw [List.mem_range, ← hs]
      simp only [List.length_append]
      omega
    · rw [← hs, List.append_assoc, List.drop_left]
      exact List.isPrefixOf_iff_prefix.mpr (List.prefix_append _ _)

/-- A string containing `://` splits at the first one. -/
theorem exists_first_sep (s : Str) (hi : lit "://" <:+: s) :
    ∃ p t, s = p ++ lit "://" ++ t ∧ ¬ lit "://" <:+: p := by
  induction s with
  | nil => exact absurd (List.infix_nil.mp hi) (by decide)
  | cons x s ih =>
    by_cases hpre : lit "://" <+: x :: s
    · obtain ⟨t, ht⟩ := hpre
      refine ⟨[], t, by rw [← ht]; rfl, ?_⟩
      intro h
      exact absurd (List.infix_nil.mp h) (by decide)
    · have hs : lit "://" <:+: s := by
        rcases List.infix_cons_iff.mp hi with h | h
        · exact absurd h hpre
        · exact h
      obtain ⟨p, t, hst, hp⟩ := ih hs
      refine ⟨x :: p, t, by rw [hst]; rfl, ?_⟩
      intro h
      rcases List.infix_cons_iff.mp h with h' | h'
      · apply hpre
        rw [hst, List.append_assoc, ← List.cons_append]
        exact h'.trans (List.prefix_append _ _)
      · exact hp h'

/-- On a URL free of line terminators the expression `.*://.*` tests whether
`://` occurs. -/
theorem hasProtocolLanguage_eq_containsText (url : Str) (hd : url.all matchesDot = true) :
    hasProtocolLanguage url = containsText (lit "://") url := by
  rw [Bool.eq_iff_iff, hasProtocolLanguage_iff, containsText_iff]
  constructor
  · rintro ⟨a, b, hu, -⟩
    exact ⟨a, b, hu.symm⟩
  · rintro ⟨a, b, hu⟩
    rw [← hu, List.all_append, List.all_append, Bool.and_eq_true, Bool.and_eq_true] at hd
    exact ⟨a, b, hu.symm, hd.1.1, hd.2⟩

theorem contains_true_iff_mem (t : Str) (x : Byte) : t.contains x = true ↔ x ∈ t :=
  List.elem_iff

/-- On a URL free of line terminators that contains `://` the expression
`.*://.*/.*` tests whether a `/` follows the first `://`. -/
theorem hasSlashAfterHostLanguage_eq (n : Str) (hd : n.all matchesDot = true)
    (hi : lit "://" <:+: n) :
    hasSlashAfterHostLanguage n = (n.drop (find n (lit "://") 0 + 3)).contains 47 := by
  obtain ⟨p, t, hn, hp⟩ := exists_first_sep n hi
  have hf : find n (lit "://") 0 = p.length := by rw [hn]; exact find_sep p t hp
  have hdrop : n.drop (p.length + 3) = t := by
    apply drop_after_sep
    rw [hn, List.append_assoc, List.drop_left]
  rw [hf, hdrop, Bool.eq_iff_iff, hasSlashAfterHostLanguage_iff, contains_true_iff_mem]
  constructor
  · rintro ⟨a, b, c, hu, -⟩
    obtain ⟨p', h, r, hs, hp', -⟩ := exists_first_split a b c
    have hf' : find n (lit "://") 0 = p'.length := by
      rw [hu, hs, List.append_assoc (p' ++ lit "://")]
      exact find_sep p' _ hp'
    have hlen : p'.length = p.length := by rw [← hf', hf]
    have : t = h ++ 47 :: r := by
      rw [← hdrop, hu, hs, ← hlen, List.append_assoc (p' ++ lit "://")]
      apply drop_after_sep
      rw [List.append_assoc, List.drop_left]
    rw [this]
    exact List.mem_append_right _ (List.mem_cons_self _ _)
  · intro hm
    obtain ⟨h, r, ht, -⟩ := exists_first_slash t hm
    have hn' : n = p ++ lit "://" ++ h ++ 47 :: r := by
      rw [hn, ht, List.append_assoc (p ++ lit "://")]
    rw [hn'] at hd
    simp only [List.all_append, List.all_cons, Bool.and_eq_true] at hd
    exact ⟨p, h, r, hn', hd.1.1.1, hd.1.2, hd.2.2⟩

/-- On a URL free of line terminators `normalizeUrlValue` is the reference
normalisation. -/
theorem normalizeUrlValue_eq_spec (url : Str) (hd : url.all matchesDot = true) :
    normalizeUrlValue url = normalizeUrlSpec url := by
  unfold normalizeUrlValue normalizeUrlSpec
  rw [hasProtocolLanguage_eq_containsText url hd]
  cases hc : containsText (lit "://") url with
  | true =>
    have hi := (containsText_iff _ _).mp hc
    simp only [Bool.not_true, Bool.false_eq_true, if_false, if_true, List.nil_append]
    rw [hasSlashAfterHostLanguage_eq url hd hi]
    cases (url.drop (find url (lit "://") 0 + 3)).contains 47 <;> simp
  | false =>
    have hd' : (lit "http://" ++ url).all matchesDot = true := by
      rw [List.all_append, hd, Bool.and_true]; decide
    have hi : lit "://" <:+: lit "http://" ++ url :=
      ⟨lit "http", url, by rw [show lit "http://" = lit "http" ++ lit "://" by decide]⟩
    simp only [Bool.not_false, if_true, Bool.false_eq_true, if_false]
    rw [hasSlashAfterHostLanguage_eq _ hd' hi]
    cases ((lit "http://" ++ url).drop (find (lit "http://" ++ url) (lit "://") 0 + 3)).contains 47
      <;> simp

/-! ## The loop of `urlDecode` -/

/-- The loop started at index `i` is the loop on the characters from `i` on. -/
theorem urlDecodeLoop_eq_decodeRest (data : Str) :
    ∀ (fuel i : Nat) (os : OStream),
      urlDecodeLoop data fuel i os = decodeRest fuel (data.drop i) os := by
  intro fuel
  induction fuel with
  | zero => intro i os; rfl
  | succ fuel ih =>
    intro i os
    by_cases h : i < data.length
    · have hd : data.drop i = data.get ⟨i, h⟩ :: data.drop (i + 1) := by
        rw [List.get_eq_getElem]; exact List.drop_eq_getElem_cons h
      have hs : substr data (i + 1) 2 = some ((data.drop (i + 1)).take 2) := by
        unfold substr
        rw [if_neg (by omega)]
      rw [hd]
      unfold urlDecodeLoop decodeRest
      simp only [dif_pos h, hs]
      split
      · rw [ih, List.drop_drop]
      · rw [ih]
    · have hd : data.drop i = [] := List.drop_eq_nil_of_le (by omega)
      rw [hd]
      unfold urlDecodeLoop decodeRest
      simp only [dif_neg h]

/-- With more fuel than characters left the loop returns a stream. -/
theorem decodeRest_isSome :
    ∀ (fuel : Nat) (l : Str) (os : OStream), l.length < fuel →
      ∃ os', decodeRest fuel l os = some os' := by
  intro fuel
  induction fuel with
  | zero => intro l os h; omega
  | succ fuel ih =>
    intro l os h
    cases l with
    | nil => exact ⟨os, rfl⟩
    | cons c rest =>
      unfold decodeRest
      simp only
      have h1 : rest.length < fuel := by simpa using h
      have h2 : (rest.drop 2).length < fuel := by
        rw [List.length_drop]; omega
      split
      · exact ih _ _ h2
      · exact ih _ _ h1

/-- The result of the loop does not depend on the fuel beyond the number of
characters left. -/
theorem decodeRest_fuel :
    ∀ (f₁ f₂ : Nat) (l : Str) (os : OStream), l.length < f₁ → l.length < f₂ →
      decodeRest f₁ l os = decodeRest f₂ l os := by
  intro f₁
  induction f₁ with
  | zero => intro f₂ l os h; omega
  | succ f₁ ih =>
    intro f₂ l os h₁ h₂
    cases f₂ with
    | zero => omega
    | succ f₂ =>
      cases l with
      | nil => rfl
      | cons c rest =>
        unfold decodeRest
        simp only
        have h1 : rest.length < f₁ := by simpa using h₁
        have h1' : rest.length < f₂ := by simpa using h₂
        have h2 : (rest.drop 2).length < f₁ := by rw [List.length_drop]; omega
        have h2' : (rest.drop 2).length < f₂ := by rw [List.length_drop]; omega
        split
        · exact ih _ _ _ h2 h2'
        · exact ih _ _ _ h1 h1'

/-- C11: `urlDecode` returns a string for every byte string; running the loop
with any amount of fuel beyond the length gives that same string, so the loop
terminates; at every index `i` inside the string the call `substr(i + 1, 2)`
does not throw and yields the at most two bytes that exist from `i + 1` on;
a `%` at the end, a `%` followed by one byte and a `%` followed by bytes that
are not hexadecimal digits are decoded without failure. -/
theorem C11_urlDecode_total_and_bounds_safe (data : Str) :
    (∃ decoded, urlDecode data = some decoded ∧
      ∀ fuel, data.length < fuel →
        (urlDecodeLoop data fuel 0 OStream.new).map (fun os => os.buf) = some decoded) ∧
    (∀ i, i < data.length →
      substr data (i + 1) 2 = some ((data.drop (i + 1)).take 2) ∧
      ((data.drop (i + 1)).take 2).length ≤ 2 ∧
      i + 1 + ((data.drop (i + 1)).take 2).length ≤ data.length) ∧
    urlDecode (lit "%") = some (lit "%") ∧
    urlDecode (lit "ab%4") = some [97, 98, 4] ∧
    urlDecode (lit "%zz") = some [0] ∧
    urlDecode (lit "%%41") = some [0, 49] := by
  refine ⟨?_, ?_, by decide, by decide, by decide, by decide⟩
  · obtain ⟨os', hos⟩ := decodeRest_isSome (data.length + 1) data OStream.new (by omega)
    refine ⟨os'.buf, ?_, ?_⟩
    · unfold urlDecode
      rw [urlDecodeLoop_eq_decodeRest, List.drop_zero, hos]
      rfl
    · intro fuel hf
      rw [urlDecodeLoop_eq_decodeRest, List.drop_zero,
        decodeRest_fuel fuel (data.length + 1) data OStream.new hf (by omega), hos]
      rfl
  · intro i hi
    refine ⟨?_, ?_, ?_⟩
    · unfold substr
      rw [if_neg (by omega)]
    · rw [List.length_take]; omega
    · rw [List.length_take, List.length_drop]; omega

/-! ## The encoding of one byte -/

set_option maxRecDepth 100000 in
/-- The three forms of the encoding of a byte: itself, when unreserved; `%` and
two digits, when below `0x80`; `%FFFFFF` and two digits, from `0x80` on. -/
theorem encodeByte_cases : ∀ c : Byte,
    (isUnreservedSpec c = true ∧ encodeByte c = [c]) ∨
    (isUnreservedSpec c = false ∧ c.val < 128 ∧
      encodeByte c = [37, hexDigitSpec (c.val / 16), hexDigitSpec (c.val % 16)]) ∨
    (128 ≤ c.val ∧
      encodeByte c = [37, 70, 70, 70, 70, 70, 70, hexDigitSpec (c.val / 16),
        hexDigitSpec (c.val % 16)]) := by
  decide

set_option maxRecDepth 100000 in
theorem encodeByte_alphabet : ∀ c : Byte,
    (encodeByte c).all (fun x => isUnreservedSpec x || x.val == 37) = true := by
  decide

set_option maxRecDepth 100000 in
theorem encodeByte_percentsAreEscapes : ∀ c : Byte,
    percentsAreEscapes (encodeByte c) = true := by
  decide

theorem hexDigitSpec_inj : ∀ x, x < 16 → ∀ y, y < 16 →
    hexDigitSpec x = hexDigitSpec y → x = y := by
  decide

theorem percentsAreEscapes_append (a b : Str) (ha : percentsAreEscapes a = true)
    (hb : percentsAreEscapes b = true) : percentsAreEscapes (a ++ b) = true := by
  induction a with
  | nil => exact hb
  | cons c cs ih =>
    unfold percentsAreEscapes at ha
    rw [Bool.and_eq_true] at ha
    rw [List.cons_append]
    unfold percentsAreEscapes
    rw [Bool.and_eq_true]
    refine ⟨?_, ih ha.2⟩
    have h1 := ha.1
    by_cases hc : c.val = 37
    · rw [if_pos hc] at h1 ⊢
      match cs, h1 with
      | x :: y :: t, h1 => exact h1
    · rw [if_neg hc]

theorem flatMap_percentsAreEscapes (s : Str) :
    percentsAreEscapes (s.flatMap encodeByte) = true := by
  induction s with
  | nil => rfl
  | cons c cs ih =>
    rw [List.flatMap_cons]
    exact percentsAreEscapes_append _ _ (encodeByte_percentsAreEscapes c) ih

theorem mem_urlEncode_alphabet (s : Str) (x : Byte) (hx : x ∈ urlEncode s) :
    isUnreservedSpec x = true ∨ x.val = 37 := by
  rw [urlEncode_eq_flatMap, List.mem_flatMap] at hx
  obtain ⟨c, -, hxc⟩ := hx
  have := List.all_eq_true.mp (encodeByte_alphabet c) x hxc
  simpa using this

/-- The first encoded byte of an output determines the byte it stands for. -/
theorem encodeByte_head_inj (c d : Byte) (u v : Str)
    (h : encodeByte c ++ u = encodeByte d ++ v) : c = d := by
  have hdig : ∀ a b : Byte, hexDigitSpec (a.val / 16) = hexDigitSpec (b.val / 16) →
      hexDigitSpec (a.val % 16) = hexDigitSpec (b.val % 16) → a = b := by
    intro a b h1 h2
    have e1 := hexDigitSpec_inj _ (by omega) _ (by omega) h1
    have e2 := hexDigitSpec_inj _ (Nat.mod_lt _ (by decide)) _ (Nat.mod_lt _ (by decide)) h2
    apply Fin.ext
    omega
  have hF : ∀ a : Byte, a.val < 128 → hexDigitSpec (a.val / 16) ≠ 70 := by
    intro a ha hh
    have := hexDigitSpec_inj (a.val / 16) (by omega) 15 (by decide) (by rw [hh]; decide)
    omega
  have h37 : ∀ a : Byte, isUnreservedSpec a = true → a ≠ 37 := by
    intro a ha e
    rw [e] at ha
    exact absurd ha (by decide)
  rcases encodeByte_cases c with ⟨hc, ec⟩ | ⟨hc, hc', ec⟩ | ⟨hc, ec⟩ <;>
    rcases encodeByte_cases d with ⟨hd, ed⟩ | ⟨hd, hd', ed⟩ | ⟨hd, ed⟩ <;>
    rw [ec, ed] at h <;>
    simp only [List.cons_append, List.nil_append, List.cons.injEq] at h
  · exact h.1
  · exact absurd h.1 (h37 c hc)
  · exact absurd h.1 (h37 c hc)
  · exact absurd h.1.symm (h37 d hd)
  · exact hdig c d h.2.1 h.2.2.1
  · exact absurd h.2.1 (hF c hc')
  · exact absurd h.1.symm (h37 d hd)
  · exact absurd h.2.1.symm (hF d hd')
  · exact hdig c d h.2.2.2.2.2.2.2.1 h.2.2.2.2.2.2.2.2.1

theorem flatMap_encodeByte_injective :
    ∀ s₁ s₂ : Str, s₁.flatMap encodeByte = s₂.flatMap encodeByte → s₁ = s₂ := by
  have hne : ∀ c : Byte, encodeByte c ≠ [] := by
    intro c e
    rcases encodeByte_cases c with ⟨-, ec⟩ | ⟨-, -, ec⟩ | ⟨-, ec⟩ <;>
      rw [ec] at e <;> exact List.noConfusion e
  intro s₁
  induction s₁ with
  | nil =>
    intro s₂ h
    cases s₂ with
    | nil => rfl
    | cons d ds =>
      rw [List.flatMap_nil, List.flatMap_cons] at h
      exact absurd (List.append_eq_nil.mp h.symm).1 (hne d)
  | cons c cs ih =>
    intro s₂ h
    cases s₂ with
    | nil =>
      rw [List.flatMap_nil, List.flatMap_cons] at h
      exact absurd (List.append_eq_nil.mp h).1 (hne c)
    | cons d ds =>
      rw [List.flatMap_cons, List.flatMap_cons] at h
      have hcd := encodeByte_head_inj c d _ _ h
      subst hcd
      rw [ih ds (List.append_cancel_left h)]

/-- C12: for every byte string, the output of `urlEncode` has only characters
from `[A-Za-z0-9]`, `-`, `.`, `_`, `~` and `%`, so neither `+` nor a space, and
every `%` in it is immediately followed by two uppercase hexadecimal digits;
a space becomes `%20` and a `+` becomes `%2B`. -/
theorem C12_urlEncode_output_alphabet (s : Str) :
    (∀ x ∈ urlEncode s, isUnreservedSpec x = true ∨ x.val = 37) ∧
    (43 : Byte) ∉ urlEncode s ∧
    (32 : Byte) ∉ urlEncode s ∧
    percentsAreEscapes (urlEncode s) = true ∧
    urlEncode (lit " ") = lit "%20" ∧
    urlEncode (lit "+") = lit "%2B" := by
  refine ⟨mem_urlEncode_alphabet s, ?_, ?_, ?_, by decide, by decide⟩
  · intro h
    rcases mem_urlEncode_alphabet s _ h with h' | h'
    · exact absurd h' (by decide)
    · exact absurd h' (by decide)
  · intro h
    rcases mem_urlEncode_alphabet s _ h with h' | h'
    · exact absurd h' (by decide)
    · exact absurd h' (by decide)
  · rw [urlEncode_eq_flatMap]
    exact flatMap_percentsAreEscapes s

/-- C17: `urlEncode` is injective: two byte strings with the same encoding are
equal. -/
theorem C17_urlEncode_injective (s₁ s₂ : Str) (h : urlEncode s₁ = urlEncode s₂) :
    s₁ = s₂ := by
  rw [urlEncode_eq_flatMap, urlEncode_eq_flatMap] at h
  exact flatMap_encodeByte_injective s₁ s₂ h

/-- C17, witness: the strings `a b` and `a b` built in two ways. -/
theorem C17_urlEncode_injective_witness :
    urlEncode (lit "a" ++ lit " b") = urlEncode (lit "a b") ∧ lit "a" ++ lit " b" = lit "a b" :=
  ⟨by decide, C17_urlEncode_injective (lit "a" ++ lit " b") (lit "a b") (by decide)⟩

/-- C18: `urlEncode` of a concatenation is the concatenation of the encodings,
the encoding of the empty string is empty, and one iteration of the loop
appends the same characters for a byte whatever case flag, base flag and fill
character earlier iterations have left in the stream. -/
theorem C18_urlEncode_distributes_over_append (a b : Str) (buf : Str)
    (uppercase hex : Bool) (fill c : Byte) :
    urlEncode (a ++ b) = urlEncode a ++ urlEncode b ∧
    urlEncode [] = [] ∧
    (urlEncodeStep ⟨buf, uppercase, hex, fill, 0⟩ c).buf
      = buf ++ (urlEncodeStep OStream.new c).buf ∧
    (urlEncodeStep ⟨buf, uppercase, hex, fill, 0⟩ c).width = 0 := by
  refine ⟨?_, rfl, ?_, ?_⟩
  · rw [urlEncode_eq_flatMap, urlEncode_eq_flatMap, urlEncode_eq_flatMap, List.flatMap_append]
  · exact (urlEncodeStep_spec ⟨buf, uppercase, hex, fill, 0⟩ c rfl).1
  · exact (urlEncodeStep_spec ⟨buf, uppercase, hex, fill, 0⟩ c rfl).2

/-! ## Decoding an encoded string -/

theorem putChar_of_width_zero (os : OStream) (x : Byte) (hw : os.width = 0) :
    (os.putChar x).buf = os.buf ++ [x] ∧ (os.putChar x).width = 0 := by
  simp [OStream.putChar, OStream.put, hw]

theorem decodeRest_escape (fuel : Nat) (a b : Byte) (rest : Str) (os : OStream) :
    decodeRest (fuel + 1) (37 :: a :: b :: rest) os =
      decodeRest fuel rest (os.putChar (toChar
        ((if extractHexUInt [a, b] 37 = 43 then 32 else extractHexUInt [a, b] 37 : Nat) : Int))) := by
  have h37 : toUInt (charToInt 37) = 37 := by decide
  conv => lhs; unfold decodeRest
  simp only [h37, if_true, List.take_succ_cons, List.take_zero, List.drop_succ_cons,
    List.drop_zero]

theorem decodeRest_literal (fuel : Nat) (c : Byte) (rest : Str) (os : OStream)
    (h : toUInt (charToInt c) ≠ 37) :
    decodeRest (fuel + 1) (c :: rest) os =
      decodeRest fuel rest (os.putChar (toChar
        ((if toUInt (charToInt c) = 43 then 32 else toUInt (charToInt c) : Nat) : Int))) := by
  conv => lhs; unfold decodeRest
  simp only [h, if_false]

set_option maxRecDepth 100000 in
/-- Decoding the encoding of a byte below `0x80` gives the byte, or a space
when the byte is `+`. -/
theorem decode_unit : ∀ c : Byte, c.val < 128 →
    (isUnreservedSpec c = true →
      toUInt (charToInt c) ≠ 37 ∧
      toChar ((if toUInt (charToInt c) = 43 then 32 else toUInt (charToInt c) : Nat) : Int)
        = plusToSpace c) ∧
    (isUnreservedSpec c = false →
      toChar ((if extractHexUInt [hexDigitSpec (c.val / 16), hexDigitSpec (c.val % 16)] 37 = 43
        then 32
        else extractHexUInt [hexDigitSpec (c.val / 16), hexDigitSpec (c.val % 16)] 37 : Nat) : Int)
        = plusToSpace c) := by
  decide

theorem length_le_flatMap_encodeByte (s : Str) : s.length ≤ (s.flatMap encodeByte).length := by
  induction s with
  | nil => exact Nat.le_refl _
  | cons c cs ih =>
    rw [List.flatMap_cons, List.length_append, List.length_cons]
    have : 1 ≤ (encodeByte c).length := by
      rcases encodeByte_cases c with ⟨-, ec⟩ | ⟨-, -, ec⟩ | ⟨-, ec⟩ <;> rw [ec] <;> simp
    omega

/-- The loop of `urlDecode`, run on the encoding of bytes below `0x80`, writes
those bytes with every `+` replaced by a space. -/
theorem decodeRest_flatMap_encodeByte :
    ∀ (s : Str) (fuel : Nat) (os : OStream), (∀ c ∈ s, c.val < 128) → s.length < fuel →
      os.width = 0 →
      ∃ os', decodeRest fuel (s.flatMap encodeByte) os = some os' ∧
        os'.buf = os.buf ++ s.map plusToSpace := by
  intro s
  induction s with
  | nil =>
    intro fuel os _ hf _
    cases fuel with
    | zero => exact absurd hf (Nat.lt_irrefl _)
    | succ fuel => exact ⟨os, rfl, by simp⟩
  | cons c cs ih =>
    intro fuel os hs hf hw
    cases fuel with
    | zero => exact absurd hf (Nat.not_lt_zero _)
    | succ fuel =>
      have hc : c.val < 128 := hs c (List.mem_cons_self _ _)
      have hcs : ∀ x ∈ cs, x.val < 128 := fun x hx => hs x (List.mem_cons_of_mem _ hx)
      have hf' : cs.length < fuel := by simpa using hf
      obtain ⟨hU, hA⟩ := decode_unit c hc
      rw [List.flatMap_cons]
      rcases encodeByte_cases c with ⟨hu, ec⟩ | ⟨hu, -, ec⟩ | ⟨hh, -⟩
      · obtain ⟨h37, hch⟩ := hU hu
        rw [ec, List.singleton_append, decodeRest_literal fuel c _ os h37, hch]
        obtain ⟨hb, hw'⟩ := putChar_of_width_zero os (plusToSpace c) hw
        obtain ⟨os', h1, h2⟩ := ih fuel _ hcs hf' hw'
        exact ⟨os', h1, by rw [h2, hb, List.map_cons, List.append_assoc]; rfl⟩
      · have hch := hA hu
        rw [ec]
        show ∃ os', decodeRest (fuel + 1)
          (37 :: hexDigitSpec (c.val / 16) :: hexDigitSpec (c.val % 16) :: cs.flatMap encodeByte) os
            = some os' ∧ _
        rw [decodeRest_escape, hch]
        obtain ⟨hb, hw'⟩ := putChar_of_width_zero os (plusToSpace c) hw
        obtain ⟨os', h1, h2⟩ := ih fuel _ hcs hf' hw'
        exact ⟨os', h1, by rw [h2, hb, List.map_cons, List.append_assoc]; rfl⟩
      · omega

theorem map_plusToSpace_of_not_mem (s : Str) (h : (43 : Byte) ∉ s) : s.map plusToSpace = s := by
  induction s with
  | nil => rfl
  | cons c cs ih =>
    have hc : c.val ≠ 43 := by
      intro e
      apply h
      have : c = 43 := Fin.ext e
      rw [this]
      exact List.mem_cons_self _ _
    rw [List.map_cons, ih (fun hm => h (List.mem_cons_of_mem _ hm))]
    unfold plusToSpace
    rw [if_neg hc]

/-- C16: for every string of bytes below `0x80`, decoding its encoding gives
the string with every `+` replaced by a space, hence the string itself when it
has no `+`. -/
theorem C16_decode_of_encode_on_ascii (s : Str) (h : ∀ c ∈ s, c.val < 128) :
    urlDecode (urlEncode s) = some (s.map plusToSpace) ∧
    ((43 : Byte) ∉ s → urlDecode (urlEncode s) = some s) := by
  have key : urlDecode (urlEncode s) = some (s.map plusToSpace) := by
    have hlen := length_le_flatMap_encodeByte s
    obtain ⟨os', h1, h2⟩ := decodeRest_flatMap_encodeByte s ((s.flatMap encodeByte).length + 1)
      OStream.new h (by omega) rfl
    unfold urlDecode
    rw [urlDecodeLoop_eq_decodeRest, List.drop_zero, urlEncode_eq_flatMap, h1]
    show some os'.buf = _
    rw [h2]
    rfl
  refine ⟨key, ?_⟩
  intro hp
  rw [key, map_plusToSpace_of_not_mem s hp]

set_option maxRecDepth 100000 in
/-- C16, witness: a string with a `+`, a `%`, a space, a NUL and a newline. -/
theorem C16_decode_of_encode_on_ascii_witness :
    (∀ c ∈ ([97, 43, 37, 32, 0, 10, 126] : Str), c.val < 128) ∧
    urlEncode [97, 43, 37, 32, 0, 10, 126] = lit "a%2B%25%20%00%0A~" ∧
    urlDecode (urlEncode [97, 43, 37, 32, 0, 10, 126]) = some [97, 32, 37, 32, 0, 10, 126] :=
  ⟨by decide, by decide,
    (C16_decode_of_encode_on_ascii [97, 43, 37, 32, 0, 10, 126] (by decide)).1⟩

/-! ## Normalising twice -/

theorem normalizeUrlValue_all_matchesDot (url : Str) (hd : url.all matchesDot = true) :
    (normalizeUrlValue url).all matchesDot = true := by
  unfold normalizeUrlValue
  simp only
  have h1 : (lit "http://").all matchesDot = true := by decide
  have h2 : (lit "/").all matchesDot = true := by decide
  split <;> split <;> simp only [List.all_append, hd, h1, h2, Bool.and_self]

/-! ## The OAuth 2.0 service -/

theorem renderParameters_four (k₁ v₁ k₂ v₂ k₃ v₃ k₄ v₄ : Str) :
    renderParameters [(k₁, v₁), (k₂, v₂), (k₃, v₃), (k₄, v₄)] =
      urlEncode k₁ ++ lit "=" ++ urlEncode v₁ ++ lit "&" ++
      (urlEncode k₂ ++ lit "=" ++ urlEncode v₂) ++ lit "&" ++
      (urlEncode k₃ ++ lit "=" ++ urlEncode v₃) ++ lit "&" ++
      (urlEncode k₄ ++ lit "=" ++ urlEncode v₄) := by
  simp [renderParameters, List.intercalate, List.intersperse]

theorem authorize_url_shape (endpoint response client redirect state : Str) :
    endpoint ++ lit "?" ++ renderParameters [(lit "response_type", response),
        (lit "client_id", client), (lit "redirect_uri", redirect), (lit "state", state)] =
      endpoint ++ (lit "?response_type=" ++ urlEncode response) ++ lit "&client_id="
        ++ urlEncode client ++ lit "&redirect_uri=" ++ urlEncode redirect ++ lit "&state="
        ++ urlEncode state := by
  have e1 : urlEncode (lit "response_type") = lit "response_type" := by decide
  have e2 : urlEncode (lit "client_id") = lit "client_id" := by decide
  have e3 : urlEncode (lit "redirect_uri") = lit "redirect_uri" := by decide
  have e4 : urlEncode (lit "state") = lit "state" := by decide
  have f1 : lit "?response_type=" = lit "?" ++ (lit "response_type" ++ lit "=") := by decide
  have f2 : lit "&client_id=" = lit "&" ++ (lit "client_id" ++ lit "=") := by decide
  have f3 : lit "&redirect_uri=" = lit "&" ++ (lit "redirect_uri" ++ lit "=") := by decide
  have f4 : lit "&state=" = lit "&" ++ (lit "state" ++ lit "=") := by decide
  rw [renderParameters_four, e1, e2, e3, e4, f1, f2, f3, f4]
  simp only [List.append_assoc]

/-- C13: for a service of the authorization-code grant, and likewise of the
implicit grant with `token` for `code`, the authorize URL for a state is the
authorization endpoint, `?response_type=code`, `&client_id=` and the encoded
client identifier, `&redirect_uri=` and the encoded redirect URI, `&state=`
and the encoded state, in that order; the service of the tests gives the URL
of the tests. -/
theorem C13_authorize_url (configuration : ServiceConfiguration) (state : Str) :
    getAuthorizeUrl { configuration with grantType := .AUTH_CODE } state =
      some (configuration.authEndpoint ++ lit "?response_type=code" ++ lit "&client_id="
        ++ urlEncode configuration.clientId ++ lit "&redirect_uri="
        ++ urlEncode configuration.redirectUri ++ lit "&state=" ++ urlEncode state) ∧
    getAuthorizeUrl { configuration with grantType := .IMPLICIT } state =
      some (configuration.authEndpoint ++ lit "?response_type=token" ++ lit "&client_id="
        ++ urlEncode configuration.clientId ++ lit "&redirect_uri="
        ++ urlEncode configuration.redirectUri ++ lit "&state=" ++ urlEncode state) ∧
    getAuthorizeUrl { ServiceConfiguration.initial .AUTH_CODE with
        authEndpoint := lit "https://server.example.com/authorize",
        clientId := lit "s6BhdRkqt3",
        redirectUri := lit "https://client.example.com/cb" } (lit "xyz") =
      some (lit "https://server.example.com/authorize?response_type=code&client_id=s6BhdRkqt3&redirect_uri=https%3A%2F%2Fclient.example.com%2Fcb&state=xyz") := by
  have c1 : lit "?response_type=" ++ urlEncode (lit "code") = lit "?response_type=code" := by
    decide
  have c2 : lit "?response_type=" ++ urlEncode (lit "token") = lit "?response_type=token" := by
    decide
  refine ⟨?_, ?_, by decide⟩
  · show some (configuration.authEndpoint ++ lit "?" ++ renderParameters
        [(lit "response_type", lit "code"), (lit "client_id", configuration.clientId),
          (lit "redirect_uri", configuration.redirectUri), (lit "state", state)]) = _
    rw [authorize_url_shape, c1]
  · show some (configuration.authEndpoint ++ lit "?" ++ renderParameters
        [(lit "response_type", lit "token"), (lit "client_id", configuration.clientId),
          (lit "redirect_uri", configuration.redirectUri), (lit "state", state)]) = _
    rw [authorize_url_shape, c2]

/-- An exchange whose transport answers with a body that has an `error`
member is the token-exchange error with that code. -/
theorem exchange_of_error_body (capabilities : Capabilities)
    (configuration : ServiceConfiguration) (parameters : List (Str × Str)) (code : Str)
    (h : ∀ request, ∃ body fields, capabilities.sendRequest request = .ok body ∧
      capabilities.parseJson body = some fields ∧ lookupField (lit "error") fields = some code) :
    exchange capabilities configuration parameters = .error (.tokenException code) := by
  obtain ⟨body, fields, h1, h2, h3⟩ := h (tokenRequest configuration parameters)
  unfold exchange
  rw [h1]
  simp only [h2]
  unfold tokenOfFields
  rw [h3]

/-- C14: when the transport answers every request with a JSON body that has
an `error` member, `getAccessToken` of the three grants that use the transport
and `refreshAccessToken` resolve to a `TokenException`; so does
`getAccessToken` of the implicit grant, without the transport, when the
fragment of the redirect URL has `error=<code>`, and so does
`refreshAccessToken` for a token without a refresh credential; none of them
resolves to a token. -/
theorem C14_error_responses_yield_token_exception (capabilities : Capabilities)
    (configuration : ServiceConfiguration) (input : Str) (token : Token) (code : Str) :
    ((∀ request, ∃ body fields, capabilities.sendRequest request = .ok body ∧
        capabilities.parseJson body = some fields ∧
        lookupField (lit "error") fields = some code) →
      (configuration.grantType ≠ .IMPLICIT →
        getAccessToken capabilities configuration input = .error (.tokenException code)) ∧
      (∃ c, refreshAccessToken capabilities configuration token = .error (.tokenException c))) ∧
    (configuration.grantType = .IMPLICIT →
      lookupField (lit "error") (parseForm (fragmentOf input)) = some code →
      getAccessToken capabilities configuration input = .error (.tokenException code)) ∧
    (token.refreshToken = none →
      ∃ c, refreshAccessToken capabilities configuration token = .error (.tokenException c)) := by
  refine ⟨?_, ?_, ?_⟩
  · intro h
    refine ⟨?_, ?_⟩
    · intro hg
      unfold getAccessToken
      cases hgt : configuration.grantType with
      | AUTH_CODE => exact exchange_of_error_body _ _ _ _ h
      | IMPLICIT => exact absurd hgt hg
      | OWNER_CREDENTIALS => exact exchange_of_error_body _ _ _ _ h
      | CLIENT_CREDENTIALS => exact exchange_of_error_body _ _ _ _ h
    · unfold refreshAccessToken
      cases token.refreshToken with
      | none => exact ⟨_, rfl⟩
      | some refresh => exact ⟨code, exchange_of_error_body _ _ _ _ h⟩
  · intro hg hf
    unfold getAccessToken
    rw [hg]
    show tokenOfFields _ = _
    unfold tokenOfFields
    rw [hf]
  · intro hr
    unfold refreshAccessToken
    rw [hr]
    exact ⟨_, rfl⟩

/-- C14, witness: the service of the tests with the transport that answers
`{"error":"invalid_request"}`, the redirect URL of the tests with the fragment
`error=access_denied&state=xyz`, and a token without a refresh credential. -/
theorem C14_error_responses_yield_token_exception_witness :
    getAccessToken errorCapabilities (ServiceConfiguration.initial .AUTH_CODE)
        (lit "https://client.example.com/cb?code=SplxlOBeZQQYbYS6WxSbIA&state=xyz")
      = .error (.tokenException (lit "invalid_request")) ∧
    getAccessToken errorCapabilities (ServiceConfiguration.initial .OWNER_CREDENTIALS) []
      = .error (.tokenException (lit "invalid_request")) ∧
    getAccessToken errorCapabilities (ServiceConfiguration.initial .CLIENT_CREDENTIALS) []
      = .error (.tokenException (lit "invalid_request")) ∧
    getAccessToken errorCapabilities (ServiceConfiguration.initial .IMPLICIT)
        (lit "https://client.example.com/cb#error=access_denied&state=xyz")
      = .error (.tokenException (lit "access_denied")) ∧
    (∃ c, refreshAccessToken errorCapabilities (ServiceConfiguration.initial .AUTH_CODE)
        ⟨lit "accessToken", none, none, none⟩ = .error (.tokenException c)) := by
  have herr : ∀ request : HttpRequest, ∃ body fields,
      errorCapabilities.sendRequest request = .ok body ∧
      errorCapabilities.parseJson body = some fields ∧
      lookupField (lit "error") fields = some (lit "invalid_request") :=
    fun _ => ⟨_, [(lit "error", lit "invalid_request")], rfl, by decide, by decide⟩
  exact ⟨((C14_error_responses_yield_token_exception errorCapabilities
      (ServiceConfiguration.initial .AUTH_CODE) _ ⟨[], none, none, none⟩ _).1 herr).1 (by decide),
    ((C14_error_responses_yield_token_exception errorCapabilities
      (ServiceConfiguration.initial .OWNER_CREDENTIALS) _ ⟨[], none, none, none⟩ _).1 herr).1
        (by decide),
    ((C14_error_responses_yield_token_exception errorCapabilities
      (ServiceConfiguration.initial .CLIENT_CREDENTIALS) _ ⟨[], none, none, none⟩ _).1 herr).1
        (by decide),
    (C14_error_responses_yield_token_exception errorCapabilities
      (ServiceConfiguration.initial .IMPLICIT) _ ⟨[], none, none, none⟩ _).2.1 rfl (by decide),
    (C14_error_responses_yield_token_exception errorCapabilities
      (ServiceConfiguration.initial .AUTH_CODE) [] ⟨lit "accessToken", none, none, none⟩ []).2.2
        rfl⟩

/-- C15: the query strategy is the one in force when none is chosen; with it
`signRequest` sets the URL to the old URL, `?access_token=` and the access
credential when the old URL has no query string, and joins with `&` when it
has one, keeping what was there; with the body strategy it sets the body to
`access_token=` and the access credential when the body was empty, and to the
old body, `&access_token=` and the access credential otherwise. -/
theorem C15_sign_request_query_and_body (recognised : Str → Bool)
    (configuration : ServiceConfiguration) (request : HttpRequest) (token : Token) :
    (ServiceConfiguration.initial configuration.grantType).signatureType = .QUERY ∧
    (request.url.contains 63 = false →
      (signRequest recognised { configuration with signatureType := .QUERY } request token).url
        = request.url ++ lit "?access_token=" ++ token.accessToken) ∧
    (request.url.contains 63 = true →
      (signRequest recognised { configuration with signatureType := .QUERY } request token).url
        = request.url ++ lit "&access_token=" ++ token.accessToken) ∧
    (request.body = [] →
      (signRequest recognised { configuration with signatureType := .BODY } request token).body
        = lit "access_token=" ++ token.accessToken) ∧
    (request.body ≠ [] →
      (signRequest recognised { configuration with signatureType := .BODY } request token).body
        = request.body ++ lit "&access_token=" ++ token.accessToken) := by
  have q1 : lit "?access_token=" = lit "?" ++ lit "access_token=" := by decide
  have q2 : lit "&access_token=" = lit "&" ++ lit "access_token=" := by decide
  refine ⟨rfl, ?_, ?_, ?_, ?_⟩
  · intro h
    show request.url ++ (if request.url.contains 63 = true then lit "&" else lit "?")
      ++ lit "access_token=" ++ token.accessToken = _
    rw [h, q1]
    simp only [Bool.false_eq_true, if_false, List.append_assoc]
  · intro h
    show request.url ++ (if request.url.contains 63 = true then lit "&" else lit "?")
      ++ lit "access_token=" ++ token.accessToken = _
    rw [h, q2]
    simp only [if_true, List.append_assoc]
  · intro h
    show (if request.body.isEmpty = true then lit "access_token=" ++ token.accessToken
      else request.body ++ lit "&access_token=" ++ token.accessToken) = _
    rw [h]
    rfl
  · intro h
    show (if request.body.isEmpty = true then lit "access_token=" ++ token.accessToken
      else request.body ++ lit "&access_token=" ++ token.accessToken) = _
    rw [if_neg]
    intro he
    exact h (List.isEmpty_iff.mp he)

/-- C15, witness: the token `mF_9.B5f-4.1JqM` of the tests, the URL
`https://data.example.com/method` and the body `name=value&a1=a2`. -/
theorem C15_sign_request_query_and_body_witness :
    (signRequest (fun _ => false) (ServiceConfiguration.initial .IMPLICIT)
        ⟨lit "POST", lit "https://data.example.com/method", [], []⟩
        ⟨lit "mF_9.B5f-4.1JqM", none, none, none⟩).url
      = lit "https://data.example.com/method?access_token=mF_9.B5f-4.1JqM" ∧
    (signRequest (fun _ => false)
        { ServiceConfiguration.initial .IMPLICIT with signatureType := .BODY }
        ⟨lit "POST", lit "https://data.example.com/method", [], []⟩
        ⟨lit "mF_9.B5f-4.1JqM", none, none, none⟩).body
      = lit "access_token=mF_9.B5f-4.1JqM" ∧
    (signRequest (fun _ => false)
        { ServiceConfiguration.initial .IMPLICIT with signatureType := .BODY }
        ⟨lit "POST", lit "https://data.example.com/method",
          [(lit "Content-Type", lit "application/x-www-form-urlencoded")],
          lit "name=value&a1=a2"⟩
        ⟨lit "mF_9.B5f-4.1JqM", none, none, none⟩).body
      = lit "name=value&a1=a2&access_token=mF_9.B5f-4.1JqM" := by
  have h := C15_sign_request_query_and_body (fun _ => false)
    (ServiceConfiguration.initial .IMPLICIT)
    ⟨lit "POST", lit "https://data.example.com/method", [], []⟩
    ⟨lit "mF_9.B5f-4.1JqM", none, none, none⟩
  have h' := C15_sign_request_query_and_body (fun _ => false)
    (ServiceConfiguration.initial .IMPLICIT)
    ⟨lit "POST", lit "https://data.example.com/method",
      [(lit "Content-Type", lit "application/x-www-form-urlencoded")], lit "name=value&a1=a2"⟩
    ⟨lit "mF_9.B5f-4.1JqM", none, none, none⟩
  refine ⟨(h.2.1 (by decide)).trans (by decide), (h.2.2.2.1 rfl).trans (by decide),
    (h'.2.2.2.2 (by decide)).trans (by decide)⟩

/-! ## `normalizeUrl` and the stack -/

theorem firstLineLength_le_length (url : Str) : firstLineLength url ≤ url.length :=
  (List.takeWhile_sublist matchesDot).length_le

theorem firstLineLength_of_all (url : Str) (hd : url.all matchesDot = true) :
    firstLineLength url = url.length := by
  unfold firstLineLength
  rw [List.takeWhile_eq_self_iff.mpr (List.all_eq_true.mp hd)]

/-- When neither match exhausts the stack, `normalizeUrl` returns. -/
theorem normalizeUrl_eq_some (stack : RegexStack) (url : Str)
    (h1 : firstLineLength url ≤ stack.protocolDepth)
    (h2 : firstLineLength (withScheme url) ≤ stack.slashDepth) :
    normalizeUrl stack url = some (normalizeUrlValue url) := by
  unfold withScheme at h2
  unfold normalizeUrl regexMatchHasProtocol
  rw [if_neg (Nat.not_lt.mpr h1)]
  simp only
  unfold regexMatchHasSlashAfterHost
  rw [if_neg (Nat.not_lt.mpr h2)]
  rfl

/-- When the first match exhausts the stack, `normalizeUrl` does not return. -/
theorem normalizeUrl_eq_none (stack : RegexStack) (url : Str)
    (h : stack.protocolDepth < firstLineLength url) : normalizeUrl stack url = none := by
  unfold normalizeUrl regexMatchHasProtocol
  rw [if_pos h]

/-- What `normalizeUrl` returns is `normalizeUrlValue`, and it returns only
when neither match exhausts the stack. -/
theorem normalizeUrl_some_imp (stack : RegexStack) (url n : Str)
    (h : normalizeUrl stack url = some n) :
    n = normalizeUrlValue url ∧ firstLineLength url ≤ stack.protocolDepth ∧
      firstLineLength (withScheme url) ≤ stack.slashDepth := by
  by_cases h1 : stack.protocolDepth < firstLineLength url
  · rw [normalizeUrl_eq_none stack url h1] at h
    exact Option.noConfusion h
  · by_cases h2 : stack.slashDepth < firstLineLength (withScheme url)
    · exfalso
      unfold withScheme at h2
      unfold normalizeUrl regexMatchHasProtocol at h
      rw [if_neg h1] at h
      simp only at h
      unfold regexMatchHasSlashAfterHost at h
      rw [if_pos h2] at h
      exact Option.noConfusion h
    · rw [normalizeUrl_eq_some stack url (Nat.not_lt.mp h1) (Nat.not_lt.mp h2)] at h
      exact ⟨(Option.some.inj h).symm, Nat.not_lt.mp h1, Nat.not_lt.mp h2⟩

/-- No stack lets `normalizeUrl` return on a single line of `2^23` bytes. -/
theorem normalizeUrl_long_line (stack : RegexStack) (url : Str)
    (hd : url.all matchesDot = true) (hlen : 8388608 ≤ url.length) :
    normalizeUrl stack url = none := by
  apply normalizeUrl_eq_none
  rw [firstLineLength_of_all url hd]
  have := stack.protocolDepth_lt
  omega

theorem hasProtocolLanguage_all (url : Str) (h : hasProtocolLanguage url = true) :
    url.all matchesDot = true := by
  obtain ⟨a, b, hu, ha, hb⟩ := (hasProtocolLanguage_iff url).mp h
  rw [hu, List.all_append, List.all_append, ha, hb]
  decide

theorem hasSlashAfterHostLanguage_all (url : Str) (h : hasSlashAfterHostLanguage url = true) :
    url.all matchesDot = true := by
  obtain ⟨a, b, c, hu, ha, hb, hc⟩ := (hasSlashAfterHostLanguage_iff url).mp h
  rw [hu, List.all_append, List.all_append, List.all_append, List.all_cons, ha, hb, hc]
  decide

theorem sep_not_infix_of_no_slash (url : Str) (h : (47 : Byte) ∉ url) :
    ¬ lit "://" <:+: url := by
  intro hi
  apply h
  exact hi.subset (by rw [lit_sep]; decide)

/-- A URL without any `/` gets `http://` in front and `/` behind, with or
without line terminators, as the reference normalisation says. -/
theorem normalizeUrlValue_of_no_slash (url : Str) (h : (47 : Byte) ∉ url) :
    normalizeUrlValue url = lit "http://" ++ url ++ lit "/" ∧
    normalizeUrlSpec url = lit "http://" ++ url ++ lit "/" ∧
    withScheme url = lit "http://" ++ url := by
  have hns := sep_not_infix_of_no_slash url h
  have e : lit "http://" ++ url = lit "http" ++ lit "://" ++ url := by
    rw [show lit "http://" = lit "http" ++ lit "://" by decide]
  have hfind : find (lit "http://" ++ url) (lit "://") 0 = 4 := by
    rw [e, find_sep (lit "http") url (by decide)]
    decide
  have hdrop : (lit "http://" ++ url).drop (4 + 3) = url := by
    have : (lit "http://").length = 4 + 3 := by decide
    rw [← this, List.drop_left]
  have h1 : hasProtocolLanguage url = false := by
    cases hp : hasProtocolLanguage url with
    | false => rfl
    | true =>
      obtain ⟨a, b, hu, -⟩ := (hasProtocolLanguage_iff url).mp hp
      exact absurd ⟨a, b, hu.symm⟩ hns
  have h2 : hasSlashAfterHostLanguage (lit "http://" ++ url) = false := by
    cases hs : hasSlashAfterHostLanguage (lit "http://" ++ url) with
    | false => rfl
    | true =>
      exfalso
      obtain ⟨a, b, c, hu, -⟩ := (hasSlashAfterHostLanguage_iff _).mp hs
      obtain ⟨p', hh, r, hsp, hp', -⟩ := exists_first_split a b c
      have hf' : find (lit "http://" ++ url) (lit "://") 0 = p'.length := by
        rw [hu, hsp, List.append_assoc (p' ++ lit "://")]
        exact find_sep p' _ hp'
      have hlen : p'.length = 4 := by rw [← hf', hfind]
      have : url = hh ++ 47 :: r := by
        rw [← hdrop, hu, hsp, ← hlen, List.append_assoc (p' ++ lit "://")]
        apply drop_after_sep
        rw [List.append_assoc, List.drop_left]
      apply h
      rw [this]
      exact List.mem_append_right _ (List.mem_cons_self _ _)
  have h3 : containsText (lit "://") url = false := by
    cases hc : containsText (lit "://") url with
    | false => rfl
    | true => exact absurd ((containsText_iff _ _).mp hc) hns
  have h4 : url.contains 47 = false := by
    cases hc : url.contains 47 with
    | false => rfl
    | true => exact absurd ((contains_true_iff_mem _ _).mp hc) h
  refine ⟨?_, ?_, ?_⟩
  · unfold normalizeUrlValue
    simp only [h1, h2, Bool.not_false, if_true]
  · unfold normalizeUrlSpec
    simp only [h3, Bool.false_eq_true, if_false, hfind, hdrop, h4]
  · unfold withScheme
    simp only [h1, Bool.not_false, if_true]

/-- Where `normalizeUrl` returns, its result is the reference normalisation
exactly for the URLs that have no line terminator or no `/`. -/
theorem normalizeUrlValue_eq_spec_iff (url : Str) :
    normalizeUrlValue url = normalizeUrlSpec url ↔
      (url.all matchesDot = true ∨ (47 : Byte) ∉ url) := by
  constructor
  · intro heq
    by_cases hd : url.all matchesDot = true
    · exact Or.inl hd
    · right
      intro hm
      have h1 : hasProtocolLanguage url = false := by
        cases hp : hasProtocolLanguage url with
        | false => rfl
        | true => exact absurd (hasProtocolLanguage_all url hp) hd
      have h2 : hasSlashAfterHostLanguage (lit "http://" ++ url) = false := by
        cases hs : hasSlashAfterHostLanguage (lit "http://" ++ url) with
        | false => rfl
        | true =>
          have := hasSlashAfterHostLanguage_all _ hs
          rw [List.all_append, Bool.and_eq_true] at this
          exact absurd this.2 hd
      have hv : normalizeUrlValue url = lit "http://" ++ url ++ lit "/" := by
        unfold normalizeUrlValue
        simp only [h1, h2, Bool.not_false, if_true]
      have hlen := congrArg List.length heq
      rw [hv] at hlen
      have e : lit "http://" ++ url = lit "http" ++ lit "://" ++ url := by
        rw [show lit "http://" = lit "http" ++ lit "://" by decide]
      have hfind : find (lit "http://" ++ url) (lit "://") 0 = 4 := by
        rw [e, find_sep (lit "http") url (by decide)]
        decide
      have hdrop : (lit "http://" ++ url).drop (4 + 3) = url := by
        have : (lit "http://").length = 4 + 3 := by decide
        rw [← this, List.drop_left]
      have h7 : (lit "http://").length = 7 := by decide
      have h1' : (lit "/").length = 1 := by decide
      unfold normalizeUrlSpec at hlen
      cases hc : containsText (lit "://") url with
      | true =>
        simp only [hc, if_true, List.nil_append] at hlen
        split at hlen <;> simp only [List.length_append, h7, h1', List.length_nil] at hlen <;>
          omega
      | false =>
        have h4 : url.contains 47 = true := (contains_true_iff_mem _ _).mpr hm
        simp only [hc, Bool.false_eq_true, if_false, hfind, hdrop, h4, if_true,
          List.length_append, h7, h1', List.length_nil] at hlen
        omega
  · rintro (hd | hs)
    · exact normalizeUrlValue_eq_spec url hd
    · obtain ⟨hv, hsp, -⟩ := normalizeUrlValue_of_no_slash url hs
      rw [hv, hsp]

/-- C9, as amended: for every URL that has no line terminator or has no `/`,
and whose first line is short enough for neither match to exhaust the stack,
`normalizeUrl` returns the URL with `http://` in front when it contains no
`://`, and with `/` behind when after that no `/` follows the first `://`; in
particular for `example.com`, `https://example.com` and
`https://example.com/a`, on a stack with room for 28 characters. -/
theorem C9_normalizeUrl_is_reference (stack : RegexStack) (url : Str)
    (hdom : url.all matchesDot = true ∨ (47 : Byte) ∉ url)
    (h1 : firstLineLength url ≤ stack.protocolDepth)
    (h2 : firstLineLength (withScheme url) ≤ stack.slashDepth) :
    normalizeUrl stack url = some (normalizeUrlSpec url) ∧
    (28 ≤ stack.protocolDepth → 28 ≤ stack.slashDepth →
      normalizeUrl stack (lit "example.com") = some (lit "http://example.com/") ∧
      normalizeUrl stack (lit "https://example.com") = some (lit "https://example.com/") ∧
      normalizeUrl stack (lit "https://example.com/a") = some (lit "https://example.com/a")) := by
  refine ⟨?_, ?_⟩
  · rw [normalizeUrl_eq_some stack url h1 h2, (normalizeUrlValue_eq_spec_iff url).mpr hdom]
  · intro hp hs
    have a1 : firstLineLength (lit "example.com") = 11 := by decide
    have a2 : firstLineLength (withScheme (lit "example.com")) = 18 := by decide
    have a3 : normalizeUrlValue (lit "example.com") = lit "http://example.com/" := by decide
    have b1 : firstLineLength (lit "https://example.com") = 19 := by decide
    have b2 : firstLineLength (withScheme (lit "https://example.com")) = 19 := by decide
    have b3 : normalizeUrlValue (lit "https://example.com") = lit "https://example.com/" := by
      decide
    have c1 : firstLineLength (lit "https://example.com/a") = 21 := by decide
    have c2 : firstLineLength (withScheme (lit "https://example.com/a")) = 21 := by decide
    have c3 : normalizeUrlValue (lit "https://example.com/a") = lit "https://example.com/a" := by
      decide
    refine ⟨?_, ?_, ?_⟩
    · rw [normalizeUrl_eq_some stack _ (by omega) (by omega), a3]
    · rw [normalizeUrl_eq_some stack _ (by omega) (by omega), b3]
    · rw [normalizeUrl_eq_some stack _ (by omega) (by omega), c3]

/-- C9, witness: the URL `example.com`, which gets both additions, and the URL
`example.com` followed by a newline, which has no `/`, on a stack with room
for 1024 characters. -/
theorem C9_normalizeUrl_is_reference_witness :
    normalizeUrl ⟨1024, 1024, by decide, by decide⟩ (lit "example.com")
      = some (lit "http://example.com/") ∧
    normalizeUrl ⟨1024, 1024, by decide, by decide⟩ (lit "example.com\n")
      = some (lit "http://example.com\n/") :=
  ⟨((C9_normalizeUrl_is_reference ⟨1024, 1024, by decide, by decide⟩ (lit "example.com")
      (Or.inl (by decide)) (by decide) (by decide)).1).trans (congrArg some (by decide)),
   ((C9_normalizeUrl_is_reference ⟨1024, 1024, by decide, by decide⟩ (lit "example.com\n")
      (Or.inr (by decide)) (by decide) (by decide)).1).trans (congrArg some (by decide))⟩

/-- C9, counterexample: on no stack does `normalizeUrl` return what the claim
says for a URL with a scheme and a path that ends in a newline: where it
returns, it returns the URL with `http://` in front and `/` behind; and on no
stack does it return for a single line of `2^23` bytes. -/
theorem C9_counterexample_newline_and_long_line :
    normalizeUrlSpec (lit "http://example.com/a\n") = lit "http://example.com/a\n" ∧
    normalizeUrl ⟨1024, 1024, by decide, by decide⟩ (lit "http://example.com/a\n")
      = some (lit "http://http://example.com/a\n/") ∧
    (¬ ∃ stack, normalizeUrl stack (lit "http://example.com/a\n")
      = some (normalizeUrlSpec (lit "http://example.com/a\n"))) ∧
    (¬ ∃ stack n, normalizeUrl stack (List.replicate 8388608 (97 : Byte)) = some n) := by
  refine ⟨by decide, by decide, ?_, ?_⟩
  · rintro ⟨stack, h⟩
    have := (normalizeUrl_some_imp stack _ _ h).1
    exact absurd this (by decide)
  · rintro ⟨stack, n, h⟩
    rw [normalizeUrl_long_line stack _ (all_matchesDot_replicate _)
      (by rw [List.length_replicate])] at h
    exact Option.noConfusion h

/-! ## The split of a normalised URL -/

theorem toInt32_natCast_high (n : Nat) (h1 : 2147483648 ≤ n) (h2 : n < 4294967296) :
    toInt32 (n : Int) = (n : Int) - 4294967296 := by
  unfold toInt32
  simp only
  split <;> omega

theorem toSizeT_of_neg (i : Int) (h1 : -18446744073709551616 ≤ i) (h2 : i < 0) :
    (toSizeT i : Int) = i + 18446744073709551616 := by
  unfold toSizeT
  omega

/-- When the `/` that ends the host lies from byte `2^31` on, its position does
not fit the `int` it is stored in, and `resourceFromUrl` throws. -/
theorem resourceFromUrl_slash_beyond_int (p h r : Str) (hp : ¬ lit "://" <:+: p)
    (hh : (47 : Byte) ∉ h) (h1 : p.length + 3 < 2147483648)
    (h2 : 2147483648 ≤ p.length + 3 + h.length) (h3 : p.length + 3 + h.length < 4294967296)
    (h4 : r.length < 4294967296) :
    resourceFromUrl (p ++ lit "://" ++ h ++ 47 :: r) = none := by
  have f1 : find (p ++ lit "://" ++ h ++ 47 :: r) (lit "://") 0 = p.length := by
    rw [List.append_assoc (p ++ lit "://")]
    exact find_sep p _ hp
  have hl : (lit "://").length = 3 := by decide
  have f2 : toInt32 (toSizeT ((p.length : Int) + ((3 : Nat) : Int))) = ((p.length + 3 : Nat) : Int) := by
    have e : (p.length : Int) + ((3 : Nat) : Int) = ((p.length + 3 : Nat) : Int) := by
      push_cast; rfl
    rw [e, toSizeT_natCast _ (by omega), toInt32_natCast _ (by omega)]
  have hpos : getHostPosition (p ++ lit "://" ++ h ++ 47 :: r) =
      (((p.length + 3 : Nat) : Int), ((p.length + 3 + h.length : Nat) : Int) - 4294967296) := by
    unfold getHostPosition
    simp only [f1, hl, f2]
    rw [toSizeT_natCast _ (by omega), find_slash p h r hh, toInt32_natCast_high _ h2 h3]
  have hlen : (p ++ lit "://" ++ h ++ 47 :: r).length = p.length + 3 + h.length + (r.length + 1) := by
    simp [lit_sep]; omega
  have hs := toSizeT_of_neg (((p.length + 3 + h.length : Nat) : Int) - 4294967296)
    (by omega) (by omega)
  unfold resourceFromUrl
  simp only [hpos]
  unfold substrToEnd
  rw [if_pos (by rw [hlen]; omega)]

theorem firstLineLength_append_terminator (a b : Str) (ha : a.all matchesDot = true) :
    firstLineLength (a ++ 10 :: b) = a.length := by
  unfold firstLineLength
  rw [List.takeWhile_append_of_pos (List.all_eq_true.mp ha),
    List.takeWhile_cons_of_neg (by decide), List.append_nil]

/-- C10, as amended: for every URL on which neither match exhausts the stack,
`normalizeUrl` returns a string `n`, which is a part `p` free of `://`, then
its first `://`, a host without `/` and a resource that begins with `/`; when
that `/` lies before byte `2^31`, `hostFromUrl n` succeeds with the host and
`resourceFromUrl n` succeeds with the resource. -/
theorem C10_normalized_url_splits (stack : RegexStack) (url : Str)
    (h1 : firstLineLength url ≤ stack.protocolDepth)
    (h2 : firstLineLength (withScheme url) ≤ stack.slashDepth) :
    ∃ n p host resource,
      normalizeUrl stack url = some n ∧
      n = p ++ lit "://" ++ host ++ resource ∧
      ¬ lit "://" <:+: p ∧
      find n (lit "://") 0 = p.length ∧
      resource.head? = some 47 ∧
      (47 : Byte) ∉ host ∧
      (p.length + 3 + host.length < 2147483648 →
        hostFromUrl n = some host ∧ resourceFromUrl n = some resource) := by
  obtain ⟨a, b, c, hn⟩ := normalizeUrlValue_shape url
  obtain ⟨p, h, r, hs, hp, hh⟩ := exists_first_split a b c
  have hn' : normalizeUrlValue url = p ++ lit "://" ++ h ++ 47 :: r := hn.trans hs
  refine ⟨normalizeUrlValue url, p, h, 47 :: r, normalizeUrl_eq_some stack url h1 h2, hn', hp,
    ?_, rfl, hh, ?_⟩
  · rw [hn', List.append_assoc (p ++ lit "://")]
    exact find_sep p _ hp
  · intro hb
    rw [hn']
    exact ⟨hostFromUrl_split p h r hp hh hb, resourceFromUrl_split p h r hp hh hb⟩

/-- C10, witness: the URL `example.com` on a stack with room for 1024
characters; the normalised URL has 19 bytes, well before byte `2^31`. -/
theorem C10_normalized_url_splits_witness :
    ∃ n host resource,
      normalizeUrl ⟨1024, 1024, by decide, by decide⟩ (lit "example.com") = some n ∧
      n = lit "http://example.com/" ∧
      hostFromUrl n = some host ∧
      resourceFromUrl n = some resource ∧
      resource.head? = some 47 ∧
      (47 : Byte) ∉ host := by
  obtain ⟨n, p, host, resource, hn, hsplit, -, -, hhead, hhost, himp⟩ :=
    C10_normalized_url_splits ⟨1024, 1024, by decide, by decide⟩ (lit "example.com")
      (by decide) (by decide)
  have hv : n = lit "http://example.com/" :=
    (normalizeUrl_some_imp _ _ _ hn).1.trans (by decide)
  have hlen : p.length + 3 + host.length < 2147483648 := by
    have h19 : n.length = 19 := by rw [hv]; decide
    rw [hsplit] at h19
    simp [lit_sep] at h19
    omega
  exact ⟨n, host, resource, hn, hv, (himp hlen).1, (himp hlen).2, hhead, hhost⟩

/-- A URL that starts with a newline and has no `/`, of about `2^31` bytes: the
stack is not at stake, the normalised URL ends in its only `/` after the
first `://`, beyond byte `2^31`, and `resourceFromUrl` throws on it. -/
theorem normalizeUrl_far_slash (stack : RegexStack) (t n : Str) (ht : (47 : Byte) ∉ t)
    (hlen1 : 2147483648 ≤ t.length) (hlen2 : t.length < 4294967280)
    (hn : normalizeUrl stack (10 :: t) = some n) :
    n = lit "http://" ++ (10 :: t) ++ lit "/" ∧ resourceFromUrl n = none := by
  have hX : (47 : Byte) ∉ 10 :: t := by
    intro hm
    rcases List.mem_cons.mp hm with e | e
    · exact absurd e (by decide)
    · exact ht e
  have hv := (normalizeUrl_some_imp stack _ _ hn).1
  rw [(normalizeUrlValue_of_no_slash _ hX).1] at hv
  refine ⟨hv, ?_⟩
  rw [hv, show lit "http://" = lit "http" ++ lit "://" by decide, lit_slash]
  have h4 : (lit "http").length = 4 := by decide
  exact resourceFromUrl_slash_beyond_int (lit "http") (10 :: t) [] (by decide) hX
    (by rw [h4]; decide) (by rw [h4, List.length_cons]; omega)
    (by rw [h4, List.length_cons]; omega) (by decide)

/-- C10, counterexample: on no stack does `normalizeUrl` return for a single
line of `2^23` bytes; and for a newline followed by `2^31` bytes without `/`
it returns, on a stack with room for 1024 characters, a string on which
`resourceFromUrl` throws, and on no stack one on which it succeeds. -/
theorem C10_counterexample_stack_and_int :
    (¬ ∃ stack n, normalizeUrl stack (List.replicate 8388608 (97 : Byte)) = some n) ∧
    normalizeUrl ⟨1024, 1024, by decide, by decide⟩
        (10 :: List.replicate 2147483648 (97 : Byte))
      = some (lit "http://" ++ (10 :: List.replicate 2147483648 (97 : Byte)) ++ lit "/") ∧
    resourceFromUrl (lit "http://" ++ (10 :: List.replicate 2147483648 (97 : Byte)) ++ lit "/")
      = none ∧
    (¬ ∃ stack n resource,
      normalizeUrl stack (10 :: List.replicate 2147483648 (97 : Byte)) = some n ∧
      resourceFromUrl n = some resource) := by
  have hX : (47 : Byte) ∉ 10 :: List.replicate 2147483648 (97 : Byte) := by
    intro hm
    rcases List.mem_cons.mp hm with e | e
    · exact absurd e (by decide)
    · exact slash_not_mem_replicate _ e
  have hl1 : 2147483648 ≤ (List.replicate 2147483648 (97 : Byte)).length := by
    rw [List.length_replicate]
  have hl2 : (List.replicate 2147483648 (97 : Byte)).length < 4294967280 := by
    rw [List.length_replicate]; decide
  have hsome : normalizeUrl ⟨1024, 1024, by decide, by decide⟩
      (10 :: List.replicate 2147483648 (97 : Byte))
      = some (lit "http://" ++ (10 :: List.replicate 2147483648 (97 : Byte)) ++ lit "/") := by
    have hw := (normalizeUrlValue_of_no_slash _ hX).2.2
    rw [normalizeUrl_eq_some, (normalizeUrlValue_of_no_slash _ hX).1]
    · rw [show (10 : Byte) :: List.replicate 2147483648 (97 : Byte)
          = [] ++ 10 :: List.replicate 2147483648 (97 : Byte) from rfl,
        firstLineLength_append_terminator [] _ rfl]
      decide
    · rw [hw, firstLineLength_append_terminator (lit "http://") _ (by decide)]
      decide
  refine ⟨?_, hsome, ?_, ?_⟩
  · rintro ⟨stack, n, h⟩
    rw [normalizeUrl_long_line stack _ (all_matchesDot_replicate _)
      (by rw [List.length_replicate])] at h
    exact Option.noConfusion h
  · have := normalizeUrl_far_slash _ _ _ (slash_not_mem_replicate _) hl1 hl2 hsome
    rw [← this.1]
    exact this.2
  · rintro ⟨stack, n, resource, hn, hr⟩
    have := (normalizeUrl_far_slash stack _ n (slash_not_mem_replicate _) hl1 hl2 hn).2
    rw [this] at hr
    exact Option.noConfusion hr

/-! ## Normalising twice -/

theorem length_le_withScheme (url : Str) : url.length ≤ (withScheme url).length := by
  unfold withScheme
  split
  · rw [List.length_append]; omega
  · exact Nat.le_refl _

theorem withScheme_length_le_value (url : Str) :
    (withScheme url).length ≤ (normalizeUrlValue url).length := by
  have e : normalizeUrlValue url =
      if (!hasSlashAfterHostLanguage (withScheme url)) = true then withScheme url ++ lit "/"
      else withScheme url := rfl
  rw [e]
  split
  · rw [List.length_append]; omega
  · exact Nat.le_refl _

/-- A URL that splits around `://` and a later `/` into runs free of line
terminators, and that is short enough for the stack, is returned unchanged
by `normalizeUrl`. -/
theorem normalizeUrl_of_split (stack : RegexStack) (a b c : Str)
    (ha : a.all matchesDot = true) (hb : b.all matchesDot = true)
    (hc : c.all matchesDot = true)
    (h1 : (a ++ lit "://" ++ b ++ 47 :: c).length ≤ stack.protocolDepth)
    (h2 : (a ++ lit "://" ++ b ++ 47 :: c).length ≤ stack.slashDepth) :
    normalizeUrl stack (a ++ lit "://" ++ b ++ 47 :: c) = some (a ++ lit "://" ++ b ++ 47 :: c) := by
  have hp : hasProtocolLanguage (a ++ lit "://" ++ b ++ 47 :: c) = true := by
    rw [hasProtocolLanguage_iff]
    refine ⟨a, b ++ 47 :: c, by simp only [List.append_assoc], ha, ?_⟩
    rw [List.all_append, hb, Bool.true_and, List.all_cons, hc, Bool.and_true]
    decide
  have hw : withScheme (a ++ lit "://" ++ b ++ 47 :: c) = a ++ lit "://" ++ b ++ 47 :: c := by
    unfold withScheme
    simp only [hp, Bool.not_true, Bool.false_eq_true, if_false]
  rw [normalizeUrl_eq_some stack _ ((firstLineLength_le_length _).trans h1)
    (by rw [hw]; exact (firstLineLength_le_length _).trans h2),
    normalizeUrlValue_of_split a b c ha hb hc]

/-- C19, as amended: for every URL without a line terminator whose normalised
form is short enough for neither match to exhaust the stack, `normalizeUrl`
returns a string, and `normalizeUrl` of that string returns the same
string. -/
theorem C19_normalizeUrl_idempotent (stack : RegexStack) (url : Str)
    (hd : url.all matchesDot = true)
    (h1 : (normalizeUrlValue url).length ≤ stack.protocolDepth)
    (h2 : (normalizeUrlValue url).length ≤ stack.slashDepth) :
    ∃ n, normalizeUrl stack url = some n ∧ normalizeUrl stack n = some n := by
  have l1 := firstLineLength_le_length url
  have l2 := length_le_withScheme url
  have l3 := withScheme_length_le_value url
  have l4 := firstLineLength_le_length (withScheme url)
  refine ⟨normalizeUrlValue url, normalizeUrl_eq_some stack url (by omega) (by omega), ?_⟩
  obtain ⟨a, b, c, hn⟩ := normalizeUrlValue_shape url
  have hall := normalizeUrlValue_all_matchesDot url hd
  rw [hn] at hall h1 h2 ⊢
  simp only [List.all_append, List.all_cons, Bool.and_eq_true] at hall
  exact normalizeUrl_of_split stack a b c hall.1.1.1 hall.1.2 hall.2.2 h1 h2

/-- C19, witness: the URL `example.com` on a stack with room for 1024
characters. -/
theorem C19_normalizeUrl_idempotent_witness :
    (lit "example.com").all matchesDot = true ∧
    ∃ n, normalizeUrl ⟨1024, 1024, by decide, by decide⟩ (lit "example.com") = some n ∧
      normalizeUrl ⟨1024, 1024, by decide, by decide⟩ n = some n :=
  ⟨by decide, C19_normalizeUrl_idempotent ⟨1024, 1024, by decide, by decide⟩
    (lit "example.com") (by decide) (by decide) (by decide)⟩

/-- C19, counterexample: a single line of `2^23` bytes has no line terminator,
and on no stack does `normalizeUrl` return for it. -/
theorem C19_counterexample_long_line :
    (List.replicate 8388608 (97 : Byte)).all matchesDot = true ∧
    (¬ ∃ stack n, normalizeUrl stack (List.replicate 8388608 (97 : Byte)) = some n) := by
  refine ⟨all_matchesDot_replicate _, ?_⟩
  rintro ⟨stack, n, h⟩
  rw [normalizeUrl_long_line stack _ (all_matchesDot_replicate _)
    (by rw [List.length_replicate])] at h
  exact Option.noConfusion h

end OAuth
